import Mathlib

/-!
Verification of the Karel-style grid-robot toolchain
(`src/lib/karel/engine.ts`, `vm.ts`, `terminalLang.ts`).

The TypeScript source is shallowly embedded: mutable state becomes explicit
state passing, thrown exceptions become `Except` values whose error payload
carries the state as it stood at the throw site (TypeScript exceptions leave
earlier mutations in place), JavaScript `Map`/`Set` become association lists
and finite sets keyed by the same data the string keys encode.
-/

deriving instance DecidableEq for Except

namespace Karel

/-- The four compass directions (`type Dir` in engine.ts). -/
inductive Dir where
  | N | E | S | W
deriving DecidableEq, Repr

/-- `turnLeft` from engine.ts. -/
def turnLeft (d : Dir) : Dir :=
  match d with
  | .N => .W
  | .W => .S
  | .S => .E
  | .E => .N

/-- `turnRight` from engine.ts. -/
def turnRight (d : Dir) : Dir :=
  match d with
  | .N => .E
  | .E => .S
  | .S => .W
  | .W => .N

/-- `forwardDelta` from engine.ts: unit vector of a facing direction. -/
def forwardDelta (d : Dir) : Int × Int :=
  match d with
  | .N => (0, -1)
  | .E => (1, 0)
  | .S => (0, 1)
  | .W => (-1, 0)

/-- `oppositeDir` from engine.ts. -/
def oppositeDir (d : Dir) : Dir :=
  match d with
  | .N => .S
  | .S => .N
  | .E => .W
  | .W => .E

/-- A grid cell, standing for the `"x,y"` string keys of engine.ts. -/
abbrev Cell := Int × Int

/-- `type World` from engine.ts.  The `walls` set of `"x,y,dir"` strings is a
finite set of (cell, direction) pairs; the `beepers` map is an association
list from cell to count (JavaScript `Map` insertion order preserved). -/
structure World where
  width : Int
  height : Int
  walls : Finset (Cell × Dir)
  beepers : List (Cell × Int)
deriving DecidableEq

/-- `type Robot` from engine.ts. -/
structure Robot where
  x : Int
  y : Int
  dir : Dir
  bag : Int
deriving DecidableEq, Repr

/-- `type State` from engine.ts. -/
structure State where
  world : World
  robot : Robot
  stepCount : Nat
  maxSteps : Nat
  log : List String
  won : Bool
deriving DecidableEq

/-- `KarelError` from engine.ts (`code`, `message`, `hint`). -/
structure KarelError where
  code : String
  message : String
  hint : Option String
deriving DecidableEq, Repr

/-- The `STEP_LIMIT` error thrown by `stepGuard`. -/
def stepLimitErr : KarelError :=
  ⟨"STEP_LIMIT", "Step-Limit erreicht",
   some "Deine WHILE-Schleife läuft wahrscheinlich endlos oder braucht zu viele Schritte."⟩

/-- The `MOVE_BLOCKED` error thrown by `cmdMove`. -/
def moveBlockedErr : KarelError :=
  ⟨"MOVE_BLOCKED", "MOVE blockiert",
   some "Vor dir ist eine Wand oder das Spielfeld endet. Nutze FORWARDFREE oder drehe dich vorher."⟩

/-- The `NO_BEEPER_HERE` error thrown by `cmdPick`. -/
def noBeeperHereErr : KarelError :=
  ⟨"NO_BEEPER_HERE", "Kein Beeper hier",
   some "Setze erst einen Beeper in das Feld (Level-Editor) oder prüfe mit BEEPERSHERE."⟩

/-- The `NO_BEEPER_IN_BAG` error thrown by `cmdPut`. -/
def noBeeperInBagErr : KarelError :=
  ⟨"NO_BEEPER_IN_BAG", "Kein Beeper im Inventar",
   some "Du brauchst zuerst PICK oder ein Start-Inventar > 0."⟩

/-- Result of an engine command.  A thrown exception becomes `.error (e, s)`
where `s` is the state as already mutated when the throw happened. -/
abbrev CmdResult := Except (KarelError × State) State

/-- The state a command run left behind, whether it returned or threw. -/
def afterCmd (r : CmdResult) : State :=
  match r with
  | .ok s => s
  | .error (_, s) => s

/-- `Map.get(k) ?? 0` on the beeper association list. -/
def beepGet (m : List (Cell × Int)) (k : Cell) : Int :=
  match m.lookup k with
  | some n => n
  | none => 0

/-- `Map.set(k, v)`: replace the entry for `k`, else append it. -/
def beepSet (m : List (Cell × Int)) (k : Cell) (v : Int) : List (Cell × Int) :=
  match m with
  | [] => [(k, v)]
  | (k', v') :: rest =>
      if k' = k then (k', v) :: rest else (k', v') :: beepSet rest k v

/-- `inBounds` from engine.ts. -/
def inBounds (w : World) (x y : Int) : Bool :=
  0 ≤ x ∧ 0 ≤ y ∧ x < w.width ∧ y < w.height

/-- `isDirClear` from engine.ts: the neighbour in direction `dir` is inside
the grid and no wall edge on either side of the boundary blocks the move. -/
def isDirClear (s : State) (dir : Dir) : Bool :=
  let d := forwardDelta dir
  let nx := s.robot.x + d.1
  let ny := s.robot.y + d.2
  if ¬ inBounds s.world nx ny then false
  else if ((s.robot.x, s.robot.y), dir) ∈ s.world.walls then false
  else if ((nx, ny), oppositeDir dir) ∈ s.world.walls then false
  else true

/-- `isFrontClear` from engine.ts. -/
def isFrontClear (s : State) : Bool := isDirClear s s.robot.dir

/-- `isLeftClear` from engine.ts. -/
def isLeftClear (s : State) : Bool := isDirClear s (turnLeft s.robot.dir)

/-- `isRightClear` from engine.ts. -/
def isRightClear (s : State) : Bool := isDirClear s (turnRight s.robot.dir)

/-- `beepersHere` from engine.ts. -/
def beepersHere (s : State) : Bool :=
  0 < beepGet s.world.beepers (s.robot.x, s.robot.y)

/-- `hasBeepersInBag` from engine.ts. -/
def hasBeepersInBag (s : State) : Bool := 0 < s.robot.bag

/-- `stepGuard` from engine.ts: throw `STEP_LIMIT` when the counter has
reached the limit, otherwise increment the counter. -/
def stepGuard (s : State) : CmdResult :=
  if s.maxSteps ≤ s.stepCount then .error (stepLimitErr, s)
  else .ok { s with stepCount := s.stepCount + 1 }

/-- `checkWin` from engine.ts: on first reaching row `y = 0`, set `won` and
append `"WIN"` to the log. -/
def checkWin (s : State) : State :=
  if ¬ s.won ∧ s.robot.y = 0 then
    { s with won := true, log := s.log ++ ["WIN"] }
  else s

/-- `cmdMove` from engine.ts. -/
def cmdMove (s : State) : CmdResult := do
  let s ← stepGuard s
  if ¬ isFrontClear s then throw (moveBlockedErr, s)
  else
    let d := forwardDelta s.robot.dir
    pure (checkWin { s with robot := { s.robot with x := s.robot.x + d.1, y := s.robot.y + d.2 } })

/-- `cmdTurnLeft` from engine.ts. -/
def cmdTurnLeft (s : State) : CmdResult := do
  let s ← stepGuard s
  pure { s with robot := { s.robot with dir := turnLeft s.robot.dir } }

/-- `cmdTurnRight` from engine.ts. -/
def cmdTurnRight (s : State) : CmdResult := do
  let s ← stepGuard s
  pure { s with robot := { s.robot with dir := turnRight s.robot.dir } }

/-- `cmdPick` from engine.ts. -/
def cmdPick (s : State) : CmdResult := do
  let s ← stepGuard s
  let k : Cell := (s.robot.x, s.robot.y)
  let n := beepGet s.world.beepers k
  if n ≤ 0 then throw (noBeeperHereErr, s)
  else
    pure { s with
      world := { s.world with beepers := beepSet s.world.beepers k (n - 1) },
      robot := { s.robot with bag := s.robot.bag + 1 } }

/-- `cmdPut` from engine.ts. -/
def cmdPut (s : State) : CmdResult := do
  let s ← stepGuard s
  if s.robot.bag ≤ 0 then throw (noBeeperInBagErr, s)
  else
    let k : Cell := (s.robot.x, s.robot.y)
    let n := beepGet s.world.beepers k
    pure { s with
      world := { s.world with beepers := beepSet s.world.beepers k (n + 1) },
      robot := { s.robot with bag := s.robot.bag - 1 } }

/-! ## Condition / statement model (`terminalLang.ts`) -/

/-- `CmdName` from terminalLang.ts. -/
inductive CmdName where
  | forward | turnLeft | turnRight | pick | put
deriving DecidableEq, Repr

/-- `AtomName` from terminalLang.ts. -/
inductive AtomName where
  | obstacleAhead | obstacleLeft | obstacleRight
  | notAtLine8 | beepersHere | beeperInBag | won
deriving DecidableEq, Repr

/-- `Cond` from terminalLang.ts. -/
inductive Cond where
  | atom (name : AtomName)
  | not (inner : Cond)
  | and (left right : Cond)
  | or (left right : Cond)
deriving DecidableEq, Repr

/-- `Stmt` from terminalLang.ts.  `sif`'s optional `else` sequence mirrors the
optional `else?: Stmt[]` field. -/
inductive Stmt where
  | cmd (name : CmdName) (line : Nat)
  | sif (cond : Cond) (thn : List Stmt) (els : Option (List Stmt)) (line : Nat)
  | swhile (cond : Cond) (body : List Stmt) (line : Nat)
deriving Repr

/-- `evalCond` from terminalLang.ts. -/
def evalCond (c : Cond) (s : State) : Bool :=
  match c with
  | .not inner => ¬ evalCond inner s
  | .and l r => evalCond l s ∧ evalCond r s
  | .or l r => evalCond l s ∨ evalCond r s
  | .atom .obstacleAhead => ¬ isFrontClear s
  | .atom .obstacleLeft => ¬ isLeftClear s
  | .atom .obstacleRight => ¬ isRightClear s
  | .atom .notAtLine8 => ¬ s.won
  | .atom .beepersHere => beepersHere s
  | .atom .beeperInBag => hasBeepersInBag s
  | .atom .won => s.won

/-! ## Compiler and virtual machine (`vm.ts`) -/

/-- `Instr` from vm.ts.  Jump targets are `Int` because the source emits a
`-1` placeholder before patching.  The source field name `to` is a reserved
word in Lean, so it is spelled `target` here. -/
inductive Instr where
  | act (a : CmdName) (line : Nat)
  | jmp (target : Int) (line : Nat)
  | jmpIfFalse (cond : Cond) (target : Int) (line : Nat)
deriving DecidableEq, Repr

/-- Jump target of an instruction, if it has one. -/
def instrTarget (i : Instr) : Option Int :=
  match i with
  | .act _ _ => none
  | .jmp t _ => some t
  | .jmpIfFalse _ t _ => some t

mutual

/-- `compile`'s inner `compileStmts` from vm.ts, for a single statement.
`ofs` is the absolute index (`out.length`) at which this statement's code is
emitted; jump targets are the absolute indices the imperative code patches in
after emitting the governed region:
for `IF`, the branch target is patched to the instruction following the
trailing `JMP` (the start of the else code) and the trailing `JMP` — emitted
unconditionally — is patched to the position after the else code; for
`WHILE`, the branch target is patched to the position after the back `JMP`. -/
def compileS (ofs : Nat) (s : Stmt) : List Instr :=
  match s with
  | .cmd name line => [.act name line]
  | .sif c thn els line =>
      let T := compileL (ofs + 1) thn
      let elseStart := ofs + 1 + T.length + 1
      let E := match els with
        | some l => compileL elseStart l
        | none => []
      .jmpIfFalse c elseStart line :: (T ++ (.jmp (elseStart + E.length) line :: E))
  | .swhile c body line =>
      let B := compileL (ofs + 1) body
      .jmpIfFalse c (ofs + 1 + B.length + 1) line :: (B ++ [.jmp ofs line])
termination_by sizeOf s

/-- `compile`'s inner `compileStmts` from vm.ts, for a statement list
starting at absolute index `ofs`. -/
def compileL (ofs : Nat) (ss : List Stmt) : List Instr :=
  match ss with
  | [] => []
  | st :: rest =>
      let C := compileS ofs st
      C ++ compileL (ofs + C.length) rest
termination_by sizeOf ss

end

/-- `compile` from vm.ts. -/
def compile (program : List Stmt) : List Instr := compileL 0 program

/-- `VM` from vm.ts. -/
structure VM where
  pc : Int
  instr : List Instr
  done : Bool
deriving DecidableEq

/-- `makeVM` from vm.ts. -/
def makeVM (instr : List Instr) : VM :=
  { pc := 0, instr := instr, done := instr.length = 0 }

/-- The `line` field carried by every instruction. -/
def instrLine (i : Instr) : Nat :=
  match i with
  | .act _ line => line
  | .jmp _ line => line
  | .jmpIfFalse _ _ line => line

/-- `currentLine` from vm.ts. -/
def currentLine (vm : VM) : Option Nat :=
  if vm.done then none
  else match vm.instr.get? vm.pc.toNat with
    | some ins => some (instrLine ins)
    | none => none

/-- `execAct` from vm.ts: dispatch an action name to the engine command. -/
def execAct (a : CmdName) (s : State) : CmdResult :=
  match a with
  | .forward => cmdMove s
  | .turnLeft => cmdTurnLeft s
  | .turnRight => cmdTurnRight s
  | .pick => cmdPick s
  | .put => cmdPut s

/-- Result of one `stepVM` call: either the thrown engine error together with
the (unmutated) VM and the state at the throw, or the updated VM, state, and
the reported source line (`null` becomes `none`). -/
abbrev StepResult := Except (KarelError × VM × State) (VM × State × Option Nat)

/-- `stepVM` from vm.ts. -/
def stepVM (vm : VM) (s : State) : StepResult :=
  if vm.done then .ok (vm, s, none)
  else if s.won then .ok ({ vm with done := true }, s, none)
  else if vm.pc < 0 ∨ (vm.instr.length : Int) ≤ vm.pc then .ok ({ vm with done := true }, s, none)
  else
    match vm.instr.get? vm.pc.toNat with
    | none => .ok ({ vm with done := true }, s, none)
    | some ins =>
        let line := instrLine ins
        match ins with
        | .act a _ =>
            match execAct a s with
            | .error (e, s') => .error (e, vm, s')
            | .ok s' =>
                let pc' := vm.pc + 1
                .ok ({ vm with
                         pc := pc',
                         done := s'.won || decide ((vm.instr.length : Int) ≤ pc') },
                     s', some line)
        | .jmp t _ =>
            .ok ({ vm with
                     pc := t,
                     done := s.won || decide ((vm.instr.length : Int) ≤ t) },
                 s, some line)
        | .jmpIfFalse c t _ =>
            let pc' := if ¬ evalCond c s then t else vm.pc + 1
            .ok ({ vm with
                     pc := pc',
                     done := s.won || decide ((vm.instr.length : Int) ≤ pc') },
                 s, some line)

/-- Outcome of iterating `stepVM`: the VM reached `done`, ran out of fuel
while still running, or an engine error propagated out of a step. -/
inductive Outcome where
  | done (s : State)
  | more (vm : VM) (s : State)
  | fail (e : KarelError) (vm : VM) (s : State)
deriving DecidableEq

/-- Repeatedly apply `stepVM` (at most `fuel` times), collecting the reported
source lines — the caller loop of vm.ts. -/
def runVM (fuel : Nat) (vm : VM) (s : State) : List Nat × Outcome :=
  match fuel with
  | 0 => ([], .more vm s)
  | fuel + 1 =>
      if vm.done then ([], .done s)
      else
        match stepVM vm s with
        | .error (e, vm', s') => ([], .fail e vm' s')
        | .ok (vm', s', l) =>
            let r := runVM fuel vm' s'
            (l.toList ++ r.1, r.2)

/-! ## Operation sequences over a simulation state -/

/-- One mutating operation on a `State`: a guarded World-Engine action
(as dispatched by `execAct`) or a VM step with an arbitrary VM. -/
inductive Op where
  | engine (a : CmdName)
  | vmstep (vm : VM)

/-- The state left behind by an operation, whether it succeeded or threw. -/
def applyOp (op : Op) (s : State) : State :=
  match op with
  | .engine a => afterCmd (execAct a s)
  | .vmstep vm =>
      match stepVM vm s with
      | .ok (_, s', _) => s'
      | .error (_, _, s') => s'

/-- Apply a whole sequence of operations in order. -/
def applyOps (ops : List Op) (s : State) : State :=
  match ops with
  | [] => s
  | op :: rest => applyOps rest (applyOp op s)

/-- Total item count stored on the grid (sum of all beeper map values). -/
def beepSum (m : List (Cell × Int)) : Int :=
  (m.map Prod.snd).sum

/-- A small empty 2×2 world used by concrete witnesses. -/
def w2 : World := { width := 2, height := 2, walls := ∅, beepers := [] }

/-- A concrete base state used by concrete witnesses. -/
def sBase : State :=
  { world := w2, robot := { x := 0, y := 1, dir := .N, bag := 0 },
    stepCount := 0, maxSteps := 100, log := [], won := false }


/-! ## Tokenizer and text-form parser (`terminalLang.ts`) -/

/-- The single- and two-character symbols of `type Sym`. -/
inductive SymT where
  | lbrace | rbrace | lparen | rparen | eq | semi | dot | bang | andand | oror
deriving DecidableEq, Repr

/-- Rendering of a symbol, for error messages. -/
def symStr (v : SymT) : String :=
  match v with
  | .lbrace => "\x7b"
  | .rbrace => "\x7d"
  | .lparen => "("
  | .rparen => ")"
  | .eq => "="
  | .semi => ";"
  | .dot => "."
  | .bang => "!"
  | .andand => "&&"
  | .oror => "||"

/-- `type Tok` from terminalLang.ts. -/
inductive Tok where
  | id (v : String) (line : Nat)
  | sym (v : SymT) (line : Nat)
  | eol (line : Nat)
  | eof (line : Nat)
deriving DecidableEq, Repr

/-- Source line of a token. -/
def tokLine (t : Tok) : Nat :=
  match t with
  | .id _ line => line
  | .sym _ line => line
  | .eol line => line
  | .eof line => line

/-- `isWs` from terminalLang.ts. -/
def isWs (ch : Char) : Bool := ch = ' ' ∨ ch = '\t' ∨ ch = '\r'

/-- `isAlpha` from terminalLang.ts (`charCodeAt` becomes `Char.toNat`). -/
def isAlphaCh (ch : Char) : Bool :=
  (65 ≤ ch.toNat ∧ ch.toNat ≤ 90) ∨ (97 ≤ ch.toNat ∧ ch.toNat ≤ 122) ∨ ch = '_'

/-- `isAlnum` from terminalLang.ts. -/
def isAlnumCh (ch : Char) : Bool :=
  isAlphaCh ch ∨ (48 ≤ ch.toNat ∧ ch.toNat ≤ 57)

/-- The single-character symbol table of `tokenize`. -/
def charSym (ch : Char) : Option SymT :=
  if ch = '\x7b' then some .lbrace
  else if ch = '\x7d' then some .rbrace
  else if ch = '(' then some .lparen
  else if ch = ')' then some .rparen
  else if ch = '=' then some .eq
  else if ch = ';' then some .semi
  else if ch = '.' then some .dot
  else if ch = '!' then some .bang
  else none

/-- The scanning loop of `tokenize` from terminalLang.ts.  The loop always
advances, so the character count plus one bounds its iterations; `fuel` is
that bound and is structural recursion fuel only. -/
def tokenizeGo (fuel : Nat) (cs : List Char) (line : Nat) : Except String (List Tok) :=
  match fuel with
  | 0 => .error "Treibstoff erschöpft"
  | fuel + 1 =>
      match cs with
      | [] => .ok [.eof line]
      | c :: rest =>
          if c = '\n' then do
            let ts ← tokenizeGo fuel rest (line + 1)
            .ok (.eol line :: ts)
          else if isWs c then tokenizeGo fuel rest line
          else if c = '/' ∧ rest.head? = some '/' then
            tokenizeGo fuel (rest.tail.dropWhile (fun ch => ch ≠ '\n')) line
          else if c = '&' ∧ rest.head? = some '&' then do
            let ts ← tokenizeGo fuel rest.tail line
            .ok (.sym .andand line :: ts)
          else if c = '|' ∧ rest.head? = some '|' then do
            let ts ← tokenizeGo fuel rest.tail line
            .ok (.sym .oror line :: ts)
          else
            match charSym c with
            | some sv => do
                let ts ← tokenizeGo fuel rest line
                .ok (.sym sv line :: ts)
            | none =>
                if isAlphaCh c then do
                  let v := String.mk (c :: rest.takeWhile isAlnumCh)
                  let ts ← tokenizeGo fuel (rest.dropWhile isAlnumCh) line
                  .ok (.id v line :: ts)
                else
                  .error ("Unerwartetes Zeichen \"" ++ String.mk [c] ++ "\" in Zeile "
                    ++ toString line)

/-- `tokenize` from terminalLang.ts. -/
def tokenize (s : String) : Except String (List Tok) :=
  tokenizeGo (s.data.length + 1) s.data 1

/-- `peek`: the parser never reads past the trailing `eof` token. -/
def peekTok (ts : List Tok) : Tok := ts.headD (.eof 0)

/-- `skipEol` from the parser. -/
def skipEol (ts : List Tok) : List Tok :=
  ts.dropWhile (fun t => match t with | .eol _ => true | _ => false)

/-- `acceptSym` from the parser: consume the symbol if it is next. -/
def acceptSym (v : SymT) (ts : List Tok) : Bool × List Tok :=
  match peekTok ts with
  | .sym v' _ => if v' = v then (true, ts.tail) else (false, ts)
  | _ => (false, ts)

/-- `expectSym` from the parser. -/
def expectSym (v : SymT) (ts : List Tok) : Except String (Tok × List Tok) :=
  match peekTok ts with
  | .sym v' line =>
      if v' = v then .ok (.sym v' line, ts.tail)
      else .error ("Erwarte \"" ++ symStr v ++ "\" in Zeile " ++ toString line)
  | t => .error ("Erwarte \"" ++ symStr v ++ "\" in Zeile " ++ toString (tokLine t))

/-- `expectKw` from the parser. -/
def expectKw (kw : String) (ts : List Tok) : Except String (Nat × List Tok) :=
  match peekTok ts with
  | .id v line =>
      if v = kw then .ok (line, ts.tail)
      else .error ("Erwarte \"" ++ kw ++ "\" in Zeile " ++ toString line)
  | t => .error ("Erwarte \"" ++ kw ++ "\" in Zeile " ++ toString (tokLine t))

/-- `expectId` from the parser. -/
def expectId (ts : List Tok) : Except String ((String × Nat) × List Tok) :=
  match peekTok ts with
  | .id v line => .ok ((v, line), ts.tail)
  | t => .error ("Erwarte Identifier in Zeile " ++ toString (tokLine t))

/-- Recognised action names (`parseCmd`). -/
def cmdOfString (v : String) : Option CmdName :=
  if v = "forward" then some .forward
  else if v = "turnLeft" then some .turnLeft
  else if v = "turnRight" then some .turnRight
  else if v = "pick" then some .pick
  else if v = "put" then some .put
  else none

/-- Recognised atom names (`parseAtom`). -/
def atomOfString (v : String) : Option AtomName :=
  if v = "obstacleAhead" then some .obstacleAhead
  else if v = "obstacleLeft" then some .obstacleLeft
  else if v = "obstacleRight" then some .obstacleRight
  else if v = "notAtLine8" then some .notAtLine8
  else if v = "beepersHere" then some .beepersHere
  else if v = "beeperInBag" then some .beeperInBag
  else if v = "won" then some .won
  else none

/-- `parseCmd` from the parser. -/
def parseCmd (ts : List Tok) : Except String (Stmt × List Tok) := do
  let ((v, line), ts) ← expectId ts
  match cmdOfString v with
  | some name => .ok (.cmd name line, ts)
  | none => .error ("Unbekanntes Command \"" ++ v ++ "\" in Zeile " ++ toString line)

/-- The name-to-statements map of `parseRoboFile` (`Map.set` semantics). -/
def progSet (m : List (String × List Stmt)) (k : String) (v : List Stmt) :
    List (String × List Stmt) :=
  match m with
  | [] => [(k, v)]
  | (k', v') :: rest => if k' = k then (k', v) :: rest else (k', v') :: progSet rest k v

/-- `Map.get` on the program map. -/
def progGet (m : List (String × List Stmt)) (k : String) : Option (List Stmt) :=
  m.lookup k

mutual

/-- The condition grammar's `parseAtom`.  All parser functions carry
structural recursion fuel as their first argument; the source recursion
always consumes tokens, so any fuel larger than the token count behaves like
the unbounded original. -/
def parseAtom (fuel : Nat) (endSym : SymT) (ts : List Tok) :
    Except String (Cond × List Tok) :=
  match fuel with
  | 0 => .error "Treibstoff erschöpft"
  | fuel + 1 =>
      match peekTok ts with
      | .sym .lparen _ => do
          let (c, ts) ← parseCondUntil fuel .rparen ts.tail
          let (_, ts) ← expectSym .rparen ts
          .ok (c, ts)
      | .id v line =>
          match atomOfString v with
          | some a => .ok (.atom a, ts.tail)
          | none => .error ("Unbekannte Condition \"" ++ v ++ "\" in Zeile " ++ toString line)
      | .sym v line =>
          if v = endSym then
            .error ("Leere Condition vor \"" ++ symStr endSym ++ "\" in Zeile " ++ toString line)
          else .error ("Erwarte Condition in Zeile " ++ toString line)
      | t => .error ("Erwarte Condition in Zeile " ++ toString (tokLine t))

/-- The condition grammar's `parseNot`. -/
def parseNot (fuel : Nat) (endSym : SymT) (ts : List Tok) :
    Except String (Cond × List Tok) :=
  match fuel with
  | 0 => .error "Treibstoff erschöpft"
  | fuel + 1 =>
      match peekTok ts with
      | .sym .bang _ => do
          let (inner, ts) ← parseNot fuel endSym ts.tail
          .ok (.not inner, ts)
      | _ => parseAtom fuel endSym ts

/-- The loop of the condition grammar's `parseAnd`. -/
def parseAndLoop (fuel : Nat) (endSym : SymT) (left : Cond) (ts : List Tok) :
    Except String (Cond × List Tok) :=
  match fuel with
  | 0 => .error "Treibstoff erschöpft"
  | fuel + 1 =>
      match peekTok ts with
      | .sym .andand _ => do
          let (right, ts) ← parseNot fuel endSym ts.tail
          parseAndLoop fuel endSym (.and left right) ts
      | _ => .ok (left, ts)

/-- The condition grammar's `parseAnd`. -/
def parseAnd (fuel : Nat) (endSym : SymT) (ts : List Tok) :
    Except String (Cond × List Tok) :=
  match fuel with
  | 0 => .error "Treibstoff erschöpft"
  | fuel + 1 => do
      let (left, ts) ← parseNot fuel endSym ts
      parseAndLoop fuel endSym left ts

/-- The loop of the condition grammar's `parseOr`. -/
def parseOrLoop (fuel : Nat) (endSym : SymT) (left : Cond) (ts : List Tok) :
    Except String (Cond × List Tok) :=
  match fuel with
  | 0 => .error "Treibstoff erschöpft"
  | fuel + 1 =>
      match peekTok ts with
      | .sym .oror _ => do
          let (right, ts) ← parseAnd fuel endSym ts.tail
          parseOrLoop fuel endSym (.or left right) ts
      | _ => .ok (left, ts)

/-- The condition grammar's `parseOr`. -/
def parseOr (fuel : Nat) (endSym : SymT) (ts : List Tok) :
    Except String (Cond × List Tok) :=
  match fuel with
  | 0 => .error "Treibstoff erschöpft"
  | fuel + 1 => do
      let (left, ts) ← parseAnd fuel endSym ts
      parseOrLoop fuel endSym left ts

/-- `parseCondUntil` from the parser. -/
def parseCondUntil (fuel : Nat) (endSym : SymT) (ts : List Tok) :
    Except String (Cond × List Tok) :=
  match fuel with
  | 0 => .error "Treibstoff erschöpft"
  | fuel + 1 => parseOr fuel endSym ts

/-- `parseStmt` from the parser. -/
def parseStmt (fuel : Nat) (ts : List Tok) : Except String (Stmt × List Tok) :=
  match fuel with
  | 0 => .error "Treibstoff erschöpft"
  | fuel + 1 =>
      let ts := skipEol ts
      match peekTok ts with
      | .id v _ =>
          if v = "if" then parseIf fuel ts
          else if v = "while" then parseWhile fuel ts
          else parseCmd ts
      | t => .error ("Erwarte Statement in Zeile " ++ toString (tokLine t))

/-- `parseIf` from the parser (`else if` re-enters if-parsing). -/
def parseIf (fuel : Nat) (ts : List Tok) : Except String (Stmt × List Tok) :=
  match fuel with
  | 0 => .error "Treibstoff erschöpft"
  | fuel + 1 => do
      let (line, ts) ← expectKw "if" ts
      let ts := skipEol ts
      let (_, ts) ← expectSym .lparen ts
      let (cond, ts) ← parseCondUntil fuel .rparen ts
      let (_, ts) ← expectSym .rparen ts
      let ts := skipEol ts
      let (thn, ts) ← parseBlock fuel ts
      let ts := skipEol ts
      match peekTok ts with
      | .id v _ =>
          if v = "else" then do
            let ts := skipEol ts.tail
            match peekTok ts with
            | .id v2 _ =>
                if v2 = "if" then do
                  let (elseIf, ts) ← parseIf fuel ts
                  .ok (.sif cond thn (some [elseIf]) line, ts)
                else do
                  let (els, ts) ← parseBlock fuel ts
                  .ok (.sif cond thn (some els) line, ts)
            | _ => do
                let (els, ts) ← parseBlock fuel ts
                .ok (.sif cond thn (some els) line, ts)
          else .ok (.sif cond thn none line, ts)
      | _ => .ok (.sif cond thn none line, ts)

/-- `parseWhile` from the parser. -/
def parseWhile (fuel : Nat) (ts : List Tok) : Except String (Stmt × List Tok) :=
  match fuel with
  | 0 => .error "Treibstoff erschöpft"
  | fuel + 1 => do
      let (line, ts) ← expectKw "while" ts
      let ts := skipEol ts
      let (acc, ts) := acceptSym .lparen ts
      if acc then do
        let (cond, ts) ← parseCondUntil fuel .rparen ts
        let (_, ts) ← expectSym .rparen ts
        let ts := skipEol ts
        let (body, ts) ← parseBlock fuel ts
        .ok (.swhile cond body line, ts)
      else do
        let (cond, ts) ← parseCondUntil fuel .lbrace ts
        let ts := skipEol ts
        let (body, ts) ← parseBlock fuel ts
        .ok (.swhile cond body line, ts)

/-- The statement loop of `parseBlock`. -/
def parseBlockItems (fuel : Nat) (acc : List Stmt) (ts : List Tok) :
    Except String (List Stmt × List Tok) :=
  match fuel with
  | 0 => .error "Treibstoff erschöpft"
  | fuel + 1 =>
      match peekTok ts with
      | .sym .rbrace _ => .ok (acc, ts.tail)
      | .eof _ => .error "Block nicht geschlossen (fehlendes \"\x7d\")"
      | _ => do
          let (st, ts) ← parseStmt fuel ts
          let ts := skipEol ts
          let (_, ts) := acceptSym .semi ts
          let ts := skipEol ts
          parseBlockItems fuel (acc ++ [st]) ts

/-- `parseBlock` from the parser: note an immediately closing brace yields an
empty statement list. -/
def parseBlock (fuel : Nat) (ts : List Tok) : Except String (List Stmt × List Tok) :=
  match fuel with
  | 0 => .error "Treibstoff erschöpft"
  | fuel + 1 => do
      let ts := skipEol ts
      let (_, ts) ← expectSym .lbrace ts
      let ts := skipEol ts
      parseBlockItems fuel [] ts

/-- The statement loop of `parseProgramDecl`. -/
def parseProgramBody (fuel : Nat) (name : String) (acc : List Stmt) (ts : List Tok) :
    Except String (List Stmt × List Tok) :=
  match fuel with
  | 0 => .error "Treibstoff erschöpft"
  | fuel + 1 =>
      let ts := skipEol ts
      match peekTok ts with
      | .sym .semi _ => .ok (acc, ts.tail)
      | .eof _ => .error ("Programm \"" ++ name ++ "\" nicht mit \";\" beendet")
      | _ => do
          let (st, ts) ← parseStmt fuel ts
          let ts := skipEol ts
          let (accepted, ts) := acceptSym .semi ts
          if accepted then
            let ts := skipEol ts
            match peekTok ts with
            | .eof _ => .ok (acc ++ [st], ts)
            | .id v _ =>
                if v = "active" ∨ v = "program" then .ok (acc ++ [st], ts)
                else parseProgramBody fuel name (acc ++ [st]) ts
            | _ => parseProgramBody fuel name (acc ++ [st]) ts
          else parseProgramBody fuel name (acc ++ [st]) ts

/-- `parseProgramDecl` from the parser. -/
def parseProgramDecl (fuel : Nat) (ts : List Tok) :
    Except String ((String × List Stmt) × List Tok) :=
  match fuel with
  | 0 => .error "Treibstoff erschöpft"
  | fuel + 1 => do
      let (_, ts) ← expectKw "program" ts
      let ((name, _), ts) ← expectId ts
      let ts := skipEol ts
      let (_, ts) ← expectSym .eq ts
      let ts := skipEol ts
      let (stmts, ts) ← parseProgramBody fuel name [] ts
      .ok ((name, stmts), ts)

/-- `parseActiveDecl` from the parser. -/
def parseActiveDecl (fuel : Nat) (ts : List Tok) : Except String (String × List Tok) :=
  match fuel with
  | 0 => .error "Treibstoff erschöpft"
  | _ + 1 => do
      let (_, ts) ← expectKw "active" ts
      let ts := skipEol ts
      let (_, ts) ← expectSym .eq ts
      let ts := skipEol ts
      let ((name, _), ts) ← expectId ts
      let ts := skipEol ts
      let (_, ts) ← expectSym .dot ts
      .ok (name, ts)

/-- The program-collecting loop of `parseRoboFile`, followed by the
`active=` resolution. -/
def parsePrograms (fuel : Nat) (programs : List (String × List Stmt)) (ts : List Tok) :
    Except String (List Stmt) :=
  match fuel with
  | 0 => .error "Treibstoff erschöpft"
  | fuel + 1 =>
      match peekTok ts with
      | .id v _ =>
          if v = "program" then do
            let ((name, stmts), ts) ← parseProgramDecl fuel ts
            parsePrograms fuel (progSet programs name stmts) (skipEol ts)
          else parseActivePart fuel programs ts
      | _ => parseActivePart fuel programs ts

/-- The `active=` tail of `parseRoboFile`. -/
def parseActivePart (fuel : Nat) (programs : List (String × List Stmt)) (ts : List Tok) :
    Except String (List Stmt) :=
  match fuel with
  | 0 => .error "Treibstoff erschöpft"
  | fuel + 1 =>
      match peekTok ts with
      | .id v _ =>
          if v = "active" then do
            let (activeName, ts) ← parseActiveDecl fuel ts
            match progGet programs activeName with
            | none => .error ("Unbekanntes active-Programm \"" ++ activeName ++ "\"")
            | some prog =>
                let ts := skipEol ts
                match peekTok ts with
                | .eof _ => .ok prog
                | t => .error ("Unerwarteter Inhalt nach active=... in Zeile "
                    ++ toString (tokLine t))
          else .error "Keine active=... Definition gefunden"
      | _ => .error "Keine active=... Definition gefunden"

end

/-- `parseRoboFile` from the parser. -/
def parseRoboFile (fuel : Nat) (ts : List Tok) : Except String (List Stmt) :=
  parsePrograms fuel [] (skipEol ts)

/-- `parseScript` from terminalLang.ts.  The fuel passed to the recursive
descent exceeds any possible number of parsing steps for the token list. -/
def parseScript (s : String) : Except String (List Stmt) := do
  let toks ← tokenize s
  parseRoboFile (100 * (toks.length + 1)) toks


/-! ## Reachability query (`goalReachable` in engine.ts) -/

/-- The direction-classification of `canStep` in `goalReachable`: which
compass direction, if any, leads from `(x, y)` to `(nx, ny)`. -/
def dirOfStep (x y nx ny : Int) : Option Dir :=
  if nx = x ∧ ny = y - 1 then some .N
  else if nx = x ∧ ny = y + 1 then some .S
  else if nx = x + 1 ∧ ny = y then some .E
  else if nx = x - 1 ∧ ny = y then some .W
  else none

/-- `canStep` from `goalReachable`: the target cell is in bounds, the cells
are 4-adjacent, and no wall edge on either side blocks the move. -/
def canStep (w : World) (x y nx ny : Int) : Bool :=
  if ¬ inBounds w nx ny then false
  else
    match dirOfStep x y nx ny with
    | none => false
    | some dir =>
        if ((x, y), dir) ∈ w.walls then false
        else if ((nx, ny), oppositeDir dir) ∈ w.walls then false
        else true

/-- All in-bounds cells of a world, as a finite set (termination measure and
specification device only). -/
def gridCells (w : World) : Finset Cell :=
  Finset.Icc 0 (w.width - 1) ×ˢ Finset.Icc 0 (w.height - 1)

/-- The four neighbours `goalReachable` enumerates, in source order. -/
def bfsNbs (cur : Cell) : List Cell :=
  [(cur.1, cur.2 - 1), (cur.1, cur.2 + 1), (cur.1 - 1, cur.2), (cur.1 + 1, cur.2)]

/-- The neighbours `goalReachable` pushes: unvisited and steppable. -/
def bfsPushes (w : World) (seen : Finset Cell) (cur : Cell) : List Cell :=
  (bfsNbs cur).filter (fun nb => decide (nb ∉ seen) && canStep w cur.1 cur.2 nb.1 nb.2)

/-- The `while (q.length)` loop of `goalReachable`: dequeue, skip if seen,
mark seen, succeed on the win row `y = 0`, else enqueue steppable unvisited
neighbours.  The termination measure is `5·|(grid ∪ queue) \ seen| + |queue|`:
a skipped dequeue shortens the queue, and a processed dequeue newly marks a
cell of `grid ∪ queue` seen while enqueuing at most four grid cells. -/
def bfsLoop (w : World) (seen : Finset Cell) (q : List Cell) : Bool :=
  match q with
  | [] => false
  | cur :: rest =>
      if hseen : cur ∈ seen then bfsLoop w seen rest
      else
        let seen' := insert cur seen
        if cur.2 = 0 then true
        else bfsLoop w seen' (rest ++ bfsPushes w seen' cur)
termination_by 5 * ((gridCells w ∪ q.toFinset) \ seen).card + q.length
decreasing_by
  · have hsub : (gridCells w ∪ rest.toFinset) \ seen
        ⊆ (gridCells w ∪ (cur :: rest).toFinset) \ seen := by
      apply Finset.sdiff_subset_sdiff _ le_rfl
      intro x hx
      rcases Finset.mem_union.mp hx with h | h
      · exact Finset.mem_union_left _ h
      · exact Finset.mem_union_right _ (by simp [List.toFinset_cons]; right; exact List.mem_toFinset.mp h)
    have := Finset.card_le_card hsub
    simp only [List.length_cons]
    omega
  · have hpg : ∀ nb ∈ bfsPushes w (insert cur seen) cur, nb ∈ gridCells w := by
      intro nb hnb
      have hf := List.mem_filter.mp hnb
      have hcs : canStep w cur.1 cur.2 nb.1 nb.2 = true := by
        have := hf.2
        simp only [Bool.and_eq_true] at this
        exact this.2
      rw [canStep] at hcs
      by_cases hbnd : inBounds w nb.1 nb.2 = true
      · simp only [gridCells, Finset.mem_product, Finset.mem_Icc]
        have hb2 := hbnd
        simp only [inBounds, decide_eq_true_eq] at hb2
        constructor <;> constructor <;> omega
      · simp [hbnd] at hcs
    have hsub : (gridCells w ∪ (rest ++ bfsPushes w (insert cur seen) cur).toFinset)
          \ insert cur seen
        ⊆ ((gridCells w ∪ (cur :: rest).toFinset) \ seen).erase cur := by
      intro x hx
      have hx1 := Finset.mem_sdiff.mp hx
      have hxne : x ≠ cur := by
        intro he
        exact hx1.2 (he ▸ Finset.mem_insert_self cur seen)
      refine Finset.mem_erase.mpr ⟨hxne, Finset.mem_sdiff.mpr ⟨?_, ?_⟩⟩
      · rcases Finset.mem_union.mp hx1.1 with h | h
        · exact Finset.mem_union_left _ h
        · rw [List.mem_toFinset, List.mem_append] at h
          rcases h with h | h
          · exact Finset.mem_union_right _ (by simp [List.toFinset_cons]; right; exact h)
          · exact Finset.mem_union_left _ (hpg x h)
      · intro hxs
        exact hx1.2 (Finset.mem_insert_of_mem hxs)
    have hcur : cur ∈ (gridCells w ∪ (cur :: rest).toFinset) \ seen := by
      refine Finset.mem_sdiff.mpr ⟨Finset.mem_union_right _ ?_, hseen⟩
      simp [List.toFinset_cons]
    have hc1 := Finset.card_le_card hsub
    rw [Finset.card_erase_of_mem hcur] at hc1
    have hc2 : 1 ≤ ((gridCells w ∪ (cur :: rest).toFinset) \ seen).card :=
      Finset.card_pos.mpr ⟨cur, hcur⟩
    have hlp : (bfsPushes w (insert cur seen) cur).length ≤ 4 := by
      have := List.length_filter_le
        (fun nb => decide (nb ∉ insert cur seen) && canStep w cur.1 cur.2 nb.1 nb.2)
        (bfsNbs cur)
      simpa [bfsPushes, bfsNbs] using this
    simp only [List.length_append, List.length_cons]
    omega

/-- `goalReachable` from engine.ts: breadth-first search from the robot's
current cell; true once any dequeued cell lies in the win row `y = 0`. -/
def goalReachable (s : State) : Bool :=
  bfsLoop s.world ∅ [(s.robot.x, s.robot.y)]

/-- One legal BFS step between cells (in-bounds 4-adjacent, no wall edge on
either side of the crossed boundary). -/
def stepOk (w : World) (a b : Cell) : Prop := canStep w a.1 a.2 b.1 b.2 = true

/-- Reachability along legal BFS steps. -/
def Reachable (w : World) (a b : Cell) : Prop := Relation.ReflTransGen (stepOk w) a b


/-! ## Reference interpreters and VM-run machinery (for the compile/step
refinement) -/

/-- Outcome of a reference-interpreter run: normal completion, stop because
the `won` flag just became true, a propagated engine error (carrying the
state at the throw), or out of fuel. -/
inductive IOut where
  | norm (s : State)
  | stopW (s : State)
  | fail (e : KarelError) (s : State)
  | more (s : State)
deriving DecidableEq

mutual

/-- Code-faithful tree-walking interpreter, single statement.  It reports
exactly the lines the VM reports: a statement's own line when its condition
is evaluated, the then-branch's and each loop iteration's trailing jump
re-report the `If`/`While` line, and execution stops as soon as `won`
becomes true.  `fuel` bounds recursion depth and is decremented on every
call, so any sufficiently large fuel yields the unbounded behaviour. -/
def interpS (fuel : Nat) (st : Stmt) (s : State) : List Nat × IOut :=
  match fuel with
  | 0 => ([], .more s)
  | fuel + 1 =>
      match st with
      | .cmd a L =>
          match execAct a s with
          | .error (e, s') => ([], .fail e s')
          | .ok s' => if s'.won then ([L], .stopW s') else ([L], .norm s')
      | .sif c thn els L =>
          if evalCond c s then
            match interpL fuel thn s with
            | (tr, .norm s1) => ([L] ++ tr ++ [L], .norm s1)
            | (tr, o) => ([L] ++ tr, o)
          else
            match interpL fuel (els.getD []) s with
            | (tr, o) => ([L] ++ tr, o)
      | .swhile c b L =>
          if evalCond c s then
            match interpL fuel b s with
            | (tr, .norm s1) =>
                match interpS fuel (.swhile c b L) s1 with
                | (tr2, o) => ([L] ++ tr ++ [L] ++ tr2, o)
            | (tr, o) => ([L] ++ tr, o)
          else ([L], .norm s)

/-- Code-faithful tree-walking interpreter, statement sequence. -/
def interpL (fuel : Nat) (ss : List Stmt) (s : State) : List Nat × IOut :=
  match fuel with
  | 0 => ([], .more s)
  | fuel + 1 =>
      match ss with
      | [] => ([], .norm s)
      | st :: rest =>
          match interpS fuel st s with
          | (tr, .norm s1) =>
              match interpL fuel rest s1 with
              | (tr2, o) => (tr ++ tr2, o)
          | (tr, o) => (tr, o)

end

/-- Whole-program run of the code-faithful interpreter, mirroring the VM's
initial `won` check. -/
def interpProgram (fuel : Nat) (prog : List Stmt) (s : State) : List Nat × IOut :=
  if s.won then ([], .stopW s) else interpL fuel prog s

mutual

/-- Modelled from the spec: the "direct tree-walking interpreter of the
original Statement sequence" of §8, which is not part of the repository.
It visits each executed statement's source line once per execution — an
`If`'s line once when its condition is evaluated, a `While`'s line on each
condition evaluation — and does not stop early when `won` becomes true.
Single statement. -/
def interpSpecS (fuel : Nat) (st : Stmt) (s : State) : List Nat × IOut :=
  match fuel with
  | 0 => ([], .more s)
  | fuel + 1 =>
      match st with
      | .cmd a L =>
          match execAct a s with
          | .error (e, s') => ([L], .fail e s')
          | .ok s' => ([L], .norm s')
      | .sif c thn els L =>
          if evalCond c s then
            match interpSpecL fuel thn s with
            | (tr, o) => ([L] ++ tr, o)
          else
            match interpSpecL fuel (els.getD []) s with
            | (tr, o) => ([L] ++ tr, o)
      | .swhile c b L =>
          if evalCond c s then
            match interpSpecL fuel b s with
            | (tr, .norm s1) =>
                match interpSpecS fuel (.swhile c b L) s1 with
                | (tr2, o) => ([L] ++ tr ++ tr2, o)
            | (tr, o) => ([L] ++ tr, o)
          else ([L], .norm s)

/-- Modelled from the spec: spec-side tree-walking interpreter, sequence. -/
def interpSpecL (fuel : Nat) (ss : List Stmt) (s : State) : List Nat × IOut :=
  match fuel with
  | 0 => ([], .more s)
  | fuel + 1 =>
      match ss with
      | [] => ([], .norm s)
      | st :: rest =>
          match interpSpecS fuel st s with
          | (tr, .norm s1) =>
              match interpSpecL fuel rest s1 with
              | (tr2, o) => (tr ++ tr2, o)
          | (tr, o) => (tr, o)

end

/-- `done`-flag value canonically associated with a program counter. -/
def endFlag (P : List Instr) (ofs : Nat) : Bool := P.length ≤ ofs

/-- The VM sitting at absolute instruction index `ofs` of program `P`. -/
def vmAt (P : List Instr) (ofs : Nat) : VM :=
  { pc := (ofs : Int), instr := P, done := endFlag P ofs }

/-- `code` occupies positions `ofs, ofs+1, …` of the full program `P`. -/
def codeAt (P : List Instr) (ofs : Nat) (code : List Instr) : Prop :=
  ∀ i, i < code.length → P.get? (ofs + i) = code.get? i

/-- Relation between an interpreter result at a code segment
`[ofs, ofs+len)` of `P` and the VM runs from `vmAt P ofs`: a normal
completion corresponds to the VM arriving at `ofs+len` with the same line
trace, a won-stop or failure to the corresponding terminal VM outcome. -/
def SimOk (P : List Instr) (ofs len : Nat) (s : State) : List Nat × IOut → Prop
  | (tr, .norm s') => s'.won = false ∧
      ∃ n, runVM n (vmAt P ofs) s = (tr, .more (vmAt P (ofs + len)) s')
  | (tr, .stopW s') => ∃ n, runVM n (vmAt P ofs) s = (tr, .done s')
  | (tr, .fail e s') => ∃ n vm', runVM n (vmAt P ofs) s = (tr, .fail e vm' s')
  | (_, .more _) => True


/-- The if-then program used to compare the VM's line trace with the
spec-side tree-walking interpreter's. -/
def pC1 : List Stmt := [.sif (.atom .beeperInBag) [.cmd .turnLeft 2] none 1]

/-- `sBase` with one item in the bag (makes `beeperInBag` true). -/
def sBag : State := { sBase with robot := { sBase.robot with bag := 1 } }

/-- The state both executions of `pC1` from `sBag` end in. -/
def sAfterC1 : State :=
  { sBag with stepCount := 1, robot := { sBag.robot with dir := .W } }

/-- The state executing `turnLeft` once from `sBase` ends in. -/
def sTurned : State :=
  { sBase with stepCount := 1, robot := { sBase.robot with dir := .W } }

/-- The state `cmdMove` builds before the win check: counter incremented and
robot translated by the facing direction's unit vector. -/
def movedState (s : State) : State :=
  { s with
      stepCount := s.stepCount + 1,
      robot := { s.robot with
                   x := s.robot.x + (forwardDelta s.robot.dir).1,
                   y := s.robot.y + (forwardDelta s.robot.dir).2 } }

/-- A state whose robot cell is enclosed by wall edges on all four sides. -/
def sEnclosed : State :=
  { sBase with
      world := { w2 with
                   walls := {(((0 : Int), (1 : Int)), Dir.N), (((0 : Int), (1 : Int)), Dir.E),
                             (((0 : Int), (1 : Int)), Dir.S), (((0 : Int), (1 : Int)), Dir.W)} } }

/-- A concrete state with one stack of two items under the robot. -/
def sBeeper : State :=
  { sBase with world := { w2 with beepers := [(((0 : Int), (1 : Int)), 2)] } }

/-- The state `cmdPick` produces from `sBeeper`. -/
def tPicked : State :=
  { sBeeper with
      stepCount := 1,
      world := { sBeeper.world with beepers := [(((0 : Int), (1 : Int)), 1)] },
      robot := { sBeeper.robot with bag := 1 } }

/-- Recognise a `BranchIfFalse` instruction (for counting). -/
def isBranch (i : Instr) : Bool :=
  match i with
  | .jmpIfFalse _ _ _ => true
  | _ => false

/-! # Lemmas and claim theorems -/

theorem okBind {e a b : Type} (x : a) (f : a → Except e b) :
    (Except.ok x : Except e a) >>= f = f x := rfl

theorem errBind {e a b : Type} (err : e) (f : a → Except e b) :
    (Except.error err : Except e a) >>= f = .error err := rfl

theorem pureExcept {e a : Type} (x : a) : (pure x : Except e a) = .ok x := rfl

theorem throwExcept {e a : Type} (err : e) : (throw err : Except e a) = .error err := rfl

theorem stepGuard_of_lt {s : State} (h : s.stepCount < s.maxSteps) :
    stepGuard s = .ok { s with stepCount := s.stepCount + 1 } := by
  simp [stepGuard, Nat.not_le.mpr h]

theorem stepGuard_of_ge {s : State} (h : s.maxSteps ≤ s.stepCount) :
    stepGuard s = .error (stepLimitErr, s) := by
  simp [stepGuard, h]

theorem isDirClear_stepCount (s : State) (n : Nat) (d : Dir) :
    isDirClear { s with stepCount := n } d = isDirClear s d := rfl

theorem isFrontClear_stepCount (s : State) (n : Nat) :
    isFrontClear { s with stepCount := n } = isFrontClear s := rfl

theorem stepCount_checkWin (t : State) : (checkWin t).stepCount = t.stepCount := by
  rw [checkWin]; split <;> rfl

theorem execAct_stepLimit (a : CmdName) (s : State) (h : s.maxSteps ≤ s.stepCount) :
    execAct a s = .error (stepLimitErr, s) := by
  cases a <;>
    simp [execAct, cmdMove, cmdTurnLeft, cmdTurnRight, cmdPick, cmdPut,
      stepGuard_of_ge h, errBind]

/-- Claim C2 (amended): every guarded action first checks the step counter;
when the counter has reached `maxSteps` the action fails with the
`STEP_LIMIT` error and the state — including the step counter — is left
completely unmutated; otherwise the counter is incremented, and the state an
action leaves behind (whether it returns or throws a runtime action error)
carries exactly that incremented counter.  A single forward move into a cell
enclosed by all four wall edges fails with `MOVE_BLOCKED` on the first step
and leaves the step counter at 1. -/
theorem claim2_step_guard_amended (a : CmdName) (s : State) :
    (s.maxSteps ≤ s.stepCount → execAct a s = .error (stepLimitErr, s)) ∧
    (s.stepCount < s.maxSteps →
      (afterCmd (execAct a s)).stepCount = s.stepCount + 1) ∧
    (s.stepCount = 0 → 1 ≤ s.maxSteps →
      (∀ d : Dir, ((s.robot.x, s.robot.y), d) ∈ s.world.walls) →
      cmdMove s = .error (moveBlockedErr, { s with stepCount := 1 })) := by
  refine ⟨?_, ?_, ?_⟩
  · exact execAct_stepLimit a s
  · intro h
    cases a <;>
      simp only [execAct, cmdMove, cmdTurnLeft, cmdTurnRight, cmdPick, cmdPut,
        stepGuard_of_lt h, okBind] <;>
      (try split) <;>
      simp [afterCmd, pureExcept, throwExcept, stepCount_checkWin]
  · intro h0 h1 hw
    have hlt : s.stepCount < s.maxSteps := by omega
    have hfront : isFrontClear { s with stepCount := s.stepCount + 1 } = false := by
      rw [isFrontClear_stepCount]
      simp only [isFrontClear, isDirClear]
      simp [hw s.robot.dir]
    simp only [cmdMove, stepGuard_of_lt hlt, okBind]
    rw [h0] at hfront ⊢
    simp [hfront, throwExcept]


/-- Claim C2 counterexample: at the step limit the guard throws *before*
incrementing, so the error state's counter is *not* "already incremented" as
the claim states — it is left exactly at `maxSteps`. -/
theorem claim2_counterexample :
    cmdMove { sBase with stepCount := 100 }
      = .error (stepLimitErr, { sBase with stepCount := 100 }) ∧
    (afterCmd (cmdMove { sBase with stepCount := 100 })).stepCount = 100 ∧
    (afterCmd (cmdMove { sBase with stepCount := 100 })).stepCount ≠ 100 + 1 := by
  refine ⟨by decide, by decide, by decide⟩

/-- Concrete instantiation of `claim2_step_guard_amended`. -/
theorem claim2_step_guard_amended_witness :
    sBase.stepCount < sBase.maxSteps ∧
    (afterCmd (execAct .turnLeft sBase)).stepCount = sBase.stepCount + 1 :=
  ⟨by decide, (claim2_step_guard_amended .turnLeft sBase).2.1 (by decide)⟩

theorem isDirClear_eq_false_iff (s : State) (d : Dir) :
    isDirClear s d = false ↔
      (inBounds s.world (s.robot.x + (forwardDelta d).1) (s.robot.y + (forwardDelta d).2) = false ∨
       ((s.robot.x, s.robot.y), d) ∈ s.world.walls ∨
       ((s.robot.x + (forwardDelta d).1, s.robot.y + (forwardDelta d).2), oppositeDir d)
         ∈ s.world.walls) := by
  simp only [isDirClear]
  split_ifs <;> simp_all

theorem robot_checkWin (t : State) : (checkWin t).robot = t.robot := by
  rw [checkWin]; split <;> rfl

theorem maxSteps_checkWin (t : State) : (checkWin t).maxSteps = t.maxSteps := by
  rw [checkWin]; split <;> rfl

theorem won_mono_checkWin (t : State) (h : t.won = true) : checkWin t = t := by
  simp [checkWin, h]

theorem cmdMove_blocked {s : State} (hg : s.stepCount < s.maxSteps)
    (hf : isFrontClear s = false) :
    cmdMove s = .error (moveBlockedErr, { s with stepCount := s.stepCount + 1 }) := by
  have hfc : isFrontClear { s with stepCount := s.stepCount + 1 } = isFrontClear s :=
    isFrontClear_stepCount s _
  simp only [cmdMove, stepGuard_of_lt hg, okBind, hfc, hf]
  simp [throwExcept]

theorem cmdMove_clear {s : State} (hg : s.stepCount < s.maxSteps)
    (hf : isFrontClear s = true) :
    cmdMove s = .ok (checkWin (movedState s)) := by
  have hfc : isFrontClear { s with stepCount := s.stepCount + 1 } = isFrontClear s :=
    isFrontClear_stepCount s _
  simp only [cmdMove, stepGuard_of_lt hg, okBind, hfc, hf]
  simp [pureExcept, movedState]

/-- Claim C3: with the robot in bounds and the step guard passing, `cmdMove`
fails (with the `MOVE_BLOCKED` error, leaving only the incremented counter
behind) iff the forward cell is out of bounds or a wall edge is recorded on
either side of the crossed boundary; otherwise it translates the robot by the
facing direction's unit vector, and sets `won` with exactly one `"WIN"` log
entry exactly when the move reaches row 0 with `won` not yet set.  No
operation ever appends to the log of a state that has already won. -/
theorem claim3_move_semantics (s : State)
    (hb : inBounds s.world s.robot.x s.robot.y = true)
    (hg : s.stepCount < s.maxSteps) :
    ((∃ e t, cmdMove s = .error (e, t)) ↔
      (inBounds s.world (s.robot.x + (forwardDelta s.robot.dir).1)
          (s.robot.y + (forwardDelta s.robot.dir).2) = false ∨
       ((s.robot.x, s.robot.y), s.robot.dir) ∈ s.world.walls ∨
       ((s.robot.x + (forwardDelta s.robot.dir).1, s.robot.y + (forwardDelta s.robot.dir).2),
          oppositeDir s.robot.dir) ∈ s.world.walls)) ∧
    (∀ e t, cmdMove s = .error (e, t) →
      e = moveBlockedErr ∧ t = { s with stepCount := s.stepCount + 1 }) ∧
    (∀ t, cmdMove s = .ok t →
      t.robot.x = s.robot.x + (forwardDelta s.robot.dir).1 ∧
      t.robot.y = s.robot.y + (forwardDelta s.robot.dir).2 ∧
      t.robot.dir = s.robot.dir ∧
      (t.robot.y = 0 ∧ s.won = false → t.won = true ∧ t.log = s.log ++ ["WIN"]) ∧
      (¬(t.robot.y = 0 ∧ s.won = false) → t.won = s.won ∧ t.log = s.log)) ∧
    (∀ (a : CmdName) (u : State), u.won = true →
      (afterCmd (execAct a u)).log = u.log ∧ (afterCmd (execAct a u)).won = true) := by
  have hiff := isDirClear_eq_false_iff s s.robot.dir
  refine ⟨?_, ?_, ?_, ?_⟩
  · rw [← hiff]
    cases hf : isFrontClear s with
    | false =>
        rw [cmdMove_blocked hg hf]
        simpa [isFrontClear] using hf
    | true =>
        rw [cmdMove_clear hg hf]
        constructor
        · rintro ⟨e, t, het⟩
          exact absurd het (by simp)
        · intro hcontra
          rw [show isDirClear s s.robot.dir = isFrontClear s from rfl, hf] at hcontra
          simp at hcontra
  · intro e t het
    cases hf : isFrontClear s with
    | false =>
        rw [cmdMove_blocked hg hf] at het
        simp at het
        exact ⟨het.1.symm, het.2.symm⟩
    | true =>
        rw [cmdMove_clear hg hf] at het
        simp at het
  · intro t het
    cases hf : isFrontClear s with
    | false =>
        rw [cmdMove_blocked hg hf] at het
        simp at het
    | true =>
        rw [cmdMove_clear hg hf] at het
        simp only [Except.ok.injEq] at het
        subst het
        have hrob : (checkWin (movedState s)).robot = (movedState s).robot :=
          robot_checkWin _
        refine ⟨by rw [hrob]; rfl, by rw [hrob]; rfl, by rw [hrob]; rfl, ?_, ?_⟩
    
    
        · intro hy
          rw [hrob] at hy
          have hy0 : (movedState s).robot.y = 0 := hy.1
          rw [checkWin]
          rw [if_pos]
          · exact ⟨rfl, rfl⟩
          · refine ⟨by simp [movedState, hy.2], hy0⟩
        · intro hn
          rw [hrob] at hn
          rw [checkWin]
          rw [if_neg]
          · exact ⟨rfl, rfl⟩
          · rintro ⟨hw, hy0⟩
            have : (movedState s).won = s.won := rfl
            exact hn ⟨hy0, by rw [← this]; simpa using hw⟩
  · intro a u hu
    by_cases hgu : u.maxSteps ≤ u.stepCount
    · rw [execAct_stepLimit a u hgu]
      exact ⟨rfl, hu⟩
    · have hlt : u.stepCount < u.maxSteps := Nat.not_le.mp hgu
      cases a <;>
        simp only [execAct, cmdMove, cmdTurnLeft, cmdTurnRight, cmdPick, cmdPut,
          stepGuard_of_lt hlt, okBind] <;>
        (try split) <;>
        simp_all [afterCmd, pureExcept, throwExcept, checkWin]

/-- Concrete instantiation of `claim3_move_semantics`. -/
theorem claim3_move_semantics_witness :
    inBounds sBase.world sBase.robot.x sBase.robot.y = true ∧
    sBase.stepCount < sBase.maxSteps ∧
    (∀ t, cmdMove sBase = .ok t →
      t.robot.x = sBase.robot.x + (forwardDelta sBase.robot.dir).1 ∧
      t.robot.y = sBase.robot.y + (forwardDelta sBase.robot.dir).2 ∧
      t.robot.dir = sBase.robot.dir ∧
      (t.robot.y = 0 ∧ sBase.won = false → t.won = true ∧ t.log = sBase.log ++ ["WIN"]) ∧
      (¬(t.robot.y = 0 ∧ sBase.won = false) → t.won = sBase.won ∧ t.log = sBase.log)) :=
  ⟨by decide, by decide, (claim3_move_semantics sBase (by decide) (by decide)).2.2.1⟩

/-- Claim C7: when the current instruction is an `Act` whose engine action
throws, `stepVM` propagates exactly that error and the error payload carries
the VM completely unchanged — program counter unadvanced, `done` still
false — so the failing instruction is still the current one. -/
theorem claim7_act_failure_propagates (vm : VM) (s : State) (a : CmdName) (L : Nat)
    (e : KarelError) (s' : State)
    (hdone : vm.done = false) (hwon : s.won = false)
    (hlo : 0 ≤ vm.pc) (hhi : vm.pc < (vm.instr.length : Int))
    (hins : vm.instr.get? vm.pc.toNat = some (.act a L))
    (hfail : execAct a s = .error (e, s')) :
    stepVM vm s = .error (e, vm, s') ∧ currentLine vm = some L := by
  have hrange : ¬(vm.pc < 0 ∨ (vm.instr.length : Int) ≤ vm.pc) := by
    push_neg
    exact ⟨hlo, hhi⟩
  constructor
  · simp only [stepVM, hdone, hwon, hrange, if_false, Bool.false_eq_true]
    rw [hins]
    simp only [hfail]
  · simp only [currentLine, hdone, Bool.false_eq_true, if_false]
    rw [hins]
    rfl

/-- Concrete instantiation of `claim7_act_failure_propagates`. -/
theorem claim7_act_failure_propagates_witness :
    execAct .forward sEnclosed
      = .error (moveBlockedErr, { sEnclosed with stepCount := 1 }) ∧
    stepVM { pc := 0, instr := [.act .forward 1], done := false } sEnclosed
      = .error (moveBlockedErr, { pc := 0, instr := [.act .forward 1], done := false },
                { sEnclosed with stepCount := 1 }) :=
  ⟨by decide,
   (claim7_act_failure_propagates { pc := 0, instr := [.act .forward 1], done := false }
      sEnclosed .forward 1 moveBlockedErr { sEnclosed with stepCount := 1 }
      (by decide) (by decide) (by decide) (by decide) (by decide) (by decide)).1⟩


theorem beepGet_cons (k k' : Cell) (v' : Int) (rest : List (Cell × Int)) :
    beepGet ((k', v') :: rest) k = if k = k' then v' else beepGet rest k := by
  simp only [beepGet, List.lookup]
  by_cases h : k = k'
  · simp [h]
  · simp [h, beq_false_of_ne h]

theorem beepSum_cons (k : Cell) (v : Int) (rest : List (Cell × Int)) :
    beepSum ((k, v) :: rest) = v + beepSum rest := by
  simp [beepSum]

theorem beepSum_beepSet (m : List (Cell × Int)) (k : Cell) (v : Int) :
    beepSum (beepSet m k v) = beepSum m - beepGet m k + v := by
  induction m with
  | nil => simp [beepSet, beepSum, beepGet, List.lookup]
  | cons p rest ih =>
      obtain ⟨k', v'⟩ := p
      by_cases h : k' = k
      · subst h
        simp [beepSet, beepSum_cons, beepGet_cons]
        ring
      · rw [show beepSet ((k', v') :: rest) k v = (k', v') :: beepSet rest k v by
             simp [beepSet, h]]
        rw [beepSum_cons, beepSum_cons, ih, beepGet_cons, if_neg (Ne.symm h)]
        ring

theorem beepGet_beepSet_same (m : List (Cell × Int)) (k : Cell) (v : Int) :
    beepGet (beepSet m k v) k = v := by
  induction m with
  | nil => simp [beepSet, beepGet_cons]
  | cons p rest ih =>
      obtain ⟨k', v'⟩ := p
      by_cases h : k' = k
      · subst h
        simp [beepSet, beepGet_cons]
      · rw [show beepSet ((k', v') :: rest) k v = (k', v') :: beepSet rest k v by
             simp [beepSet, h]]
        rw [beepGet_cons, if_neg (Ne.symm h)]
        exact ih

theorem beepGet_beepSet_other (m : List (Cell × Int)) (k k2 : Cell) (v : Int)
    (h : k2 ≠ k) : beepGet (beepSet m k v) k2 = beepGet m k2 := by
  induction m with
  | nil => simp [beepSet, beepGet_cons, h, beepGet, List.lookup, beq_false_of_ne h]
  | cons p rest ih =>
      obtain ⟨k', v'⟩ := p
      by_cases hk : k' = k
      · subst hk
        simp [beepSet, beepGet_cons, h]
      · rw [show beepSet ((k', v') :: rest) k v = (k', v') :: beepSet rest k v by
             simp [beepSet, hk]]
        rw [beepGet_cons, beepGet_cons, ih]

theorem mem_beepSet (m : List (Cell × Int)) (k : Cell) (v : Int) (p : Cell × Int)
    (hp : p ∈ beepSet m k v) : p ∈ m ∨ p = (k, v) := by
  induction m with
  | nil => simp [beepSet] at hp; simp [hp]
  | cons q rest ih =>
      obtain ⟨k', v'⟩ := q
      by_cases hk : k' = k
      · subst hk
        simp only [beepSet, if_pos rfl] at hp
        rcases List.mem_cons.mp hp with h | h
        · right; rw [h]
        · left; exact List.mem_cons_of_mem _ h
      · rw [show beepSet ((k', v') :: rest) k v = (k', v') :: beepSet rest k v by
             simp [beepSet, hk]] at hp
        rcases List.mem_cons.mp hp with h | h
        · left; rw [h]; exact List.mem_cons_self _ _
        · rcases ih h with h2 | h2
          · left; exact List.mem_cons_of_mem _ h2
          · right; exact h2

theorem cmdPick_ok_shape {s t : State} (h : cmdPick s = .ok t) :
    s.stepCount < s.maxSteps ∧
    0 < beepGet s.world.beepers (s.robot.x, s.robot.y) ∧
    t = { s with
            stepCount := s.stepCount + 1,
            world := { s.world with
                         beepers := beepSet s.world.beepers (s.robot.x, s.robot.y)
                           (beepGet s.world.beepers (s.robot.x, s.robot.y) - 1) },
            robot := { s.robot with bag := s.robot.bag + 1 } } := by
  by_cases hg : s.maxSteps ≤ s.stepCount
  · rw [cmdPick, stepGuard_of_ge hg] at h
    simp [errBind] at h
  · have hlt : s.stepCount < s.maxSteps := Nat.not_le.mp hg
    rw [cmdPick, stepGuard_of_lt hlt] at h
    simp only [okBind] at h
    by_cases hn : beepGet s.world.beepers (s.robot.x, s.robot.y) ≤ 0
    · rw [if_pos hn] at h
      simp [throwExcept] at h
    · rw [if_neg hn] at h
      simp only [pureExcept, Except.ok.injEq] at h
      exact ⟨hlt, by omega, h.symm⟩

theorem cmdPut_ok_shape {s t : State} (h : cmdPut s = .ok t) :
    s.stepCount < s.maxSteps ∧
    0 < s.robot.bag ∧
    t = { s with
            stepCount := s.stepCount + 1,
            world := { s.world with
                         beepers := beepSet s.world.beepers (s.robot.x, s.robot.y)
                           (beepGet s.world.beepers (s.robot.x, s.robot.y) + 1) },
            robot := { s.robot with bag := s.robot.bag - 1 } } := by
  by_cases hg : s.maxSteps ≤ s.stepCount
  · rw [cmdPut, stepGuard_of_ge hg] at h
    simp [errBind] at h
  · have hlt : s.stepCount < s.maxSteps := Nat.not_le.mp hg
    rw [cmdPut, stepGuard_of_lt hlt] at h
    simp only [okBind] at h
    by_cases hn : s.robot.bag ≤ 0
    · rw [if_pos hn] at h
      simp [throwExcept] at h
    · rw [if_neg hn] at h
      simp only [pureExcept, Except.ok.injEq] at h
      exact ⟨hlt, by omega, h.symm⟩

theorem beepGet_nonneg_of {m : List (Cell × Int)} (h : ∀ p ∈ m, 0 ≤ p.2) (k : Cell) :
    0 ≤ beepGet m k := by
  induction m with
  | nil => simp [beepGet, List.lookup]
  | cons p rest ih =>
      obtain ⟨k', v'⟩ := p
      rw [beepGet_cons]
      by_cases hk : k = k'
      · rw [if_pos hk]
        exact h (k', v') (List.mem_cons_self _ _)
      · rw [if_neg hk]
        exact ih (fun q hq => h q (List.mem_cons_of_mem _ hq))

/-- Claim C10: a successful `cmdPick` or `cmdPut` conserves the total item
count (grid sum plus bag): pick moves exactly one item from the robot's cell
into the bag, put moves exactly one item from the bag onto the cell, no other
cell changes, and — the counts being integers — neither the bag nor any cell
count can become negative if they were non-negative before. -/
theorem claim10_item_conservation (s t : State) :
    (cmdPick s = .ok t →
      beepSum t.world.beepers + t.robot.bag = beepSum s.world.beepers + s.robot.bag ∧
      t.robot.bag = s.robot.bag + 1 ∧
      beepGet t.world.beepers (s.robot.x, s.robot.y)
        = beepGet s.world.beepers (s.robot.x, s.robot.y) - 1 ∧
      1 ≤ beepGet s.world.beepers (s.robot.x, s.robot.y) ∧
      (∀ k, k ≠ (s.robot.x, s.robot.y) →
        beepGet t.world.beepers k = beepGet s.world.beepers k) ∧
      ((∀ p ∈ s.world.beepers, 0 ≤ p.2) → 0 ≤ s.robot.bag →
        (∀ p ∈ t.world.beepers, 0 ≤ p.2) ∧ 0 ≤ t.robot.bag)) ∧
    (cmdPut s = .ok t →
      beepSum t.world.beepers + t.robot.bag = beepSum s.world.beepers + s.robot.bag ∧
      t.robot.bag = s.robot.bag - 1 ∧
      1 ≤ s.robot.bag ∧
      beepGet t.world.beepers (s.robot.x, s.robot.y)
        = beepGet s.world.beepers (s.robot.x, s.robot.y) + 1 ∧
      (∀ k, k ≠ (s.robot.x, s.robot.y) →
        beepGet t.world.beepers k = beepGet s.world.beepers k) ∧
      ((∀ p ∈ s.world.beepers, 0 ≤ p.2) → 0 ≤ s.robot.bag →
        (∀ p ∈ t.world.beepers, 0 ≤ p.2) ∧ 0 ≤ t.robot.bag)) := by
  constructor
  · intro h
    obtain ⟨hlt, hpos, ht⟩ := cmdPick_ok_shape h
    subst ht
    refine ⟨?_, rfl, ?_, by omega, ?_, ?_⟩
    · simp only [beepSum_beepSet]
      ring
    · simp [beepGet_beepSet_same]
    · intro k hk
      simp [beepGet_beepSet_other _ _ _ _ hk]
    · intro hnn hbag
      refine ⟨?_, by simp; omega⟩
      intro p hp
      rcases mem_beepSet _ _ _ _ hp with hm | he
      · exact hnn p hm
      · rw [he]; simp; omega
  · intro h
    obtain ⟨hlt, hpos, ht⟩ := cmdPut_ok_shape h
    subst ht
    refine ⟨?_, rfl, by omega, ?_, ?_, ?_⟩
    · simp only [beepSum_beepSet]
      ring
    · simp [beepGet_beepSet_same]
    · intro k hk
      simp [beepGet_beepSet_other _ _ _ _ hk]
    · intro hnn hbag
      refine ⟨?_, by simp; omega⟩
      intro p hp
      rcases mem_beepSet _ _ _ _ hp with hm | he
      · exact hnn p hm
      · rw [he]
        have := beepGet_nonneg_of hnn (s.robot.x, s.robot.y)
        simp
        omega


/-- Concrete instantiation of `claim10_item_conservation`. -/
theorem claim10_item_conservation_witness :
    cmdPick sBeeper = .ok tPicked ∧
    tPicked.robot.bag = sBeeper.robot.bag + 1 :=
  ⟨by decide, ((claim10_item_conservation sBeeper tPicked).1 (by decide)).2.1⟩

theorem execAct_fields (a : CmdName) (s : State) :
    (afterCmd (execAct a s)).maxSteps = s.maxSteps ∧
    (s.won = true → (afterCmd (execAct a s)).won = true) ∧
    (s.stepCount ≤ s.maxSteps → (afterCmd (execAct a s)).stepCount ≤ s.maxSteps) := by
  by_cases hg : s.maxSteps ≤ s.stepCount
  · rw [execAct_stepLimit a s hg]
    exact ⟨rfl, fun h => h, fun h => h⟩
  · have hlt : s.stepCount < s.maxSteps := Nat.not_le.mp hg
    cases a <;>
      simp only [execAct, cmdMove, cmdTurnLeft, cmdTurnRight, cmdPick, cmdPut,
        stepGuard_of_lt hlt, okBind] <;>
      (try split) <;>
      simp_all [afterCmd, pureExcept, throwExcept, checkWin] <;>
      (try split) <;>
      first
        | omega
        | (simp_all; omega)

/-- The state left behind by a VM step is either the input state or the
state some engine action left behind. -/
theorem applyOp_vmstep_shape (vm : VM) (s : State) :
    applyOp (.vmstep vm) s = s ∨
    ∃ a, applyOp (.vmstep vm) s = afterCmd (execAct a s) := by
  simp only [applyOp, stepVM]
  by_cases hd : vm.done = true
  · simp [hd]
  · simp only [hd, Bool.false_eq_true, if_false]
    by_cases hw : s.won = true
    · simp [hw]
    · simp only [hw, Bool.false_eq_true, if_false]
      by_cases hr : vm.pc < 0 ∨ (vm.instr.length : Int) ≤ vm.pc
      · simp [hr]
      · simp only [hr, if_false]
        cases hi : vm.instr.get? vm.pc.toNat with
        | none => simp
        | some ins =>
            cases ins with
            | act a L =>
                right
                refine ⟨a, ?_⟩
                cases he : execAct a s with
                | error p =>
                    obtain ⟨e, s'⟩ := p
                    simp [he, afterCmd]
                | ok s' => simp [he, afterCmd]
            | jmp t L => simp
            | jmpIfFalse c t L => simp

theorem applyOp_fields (op : Op) (s : State) :
    (applyOp op s).maxSteps = s.maxSteps ∧
    (s.won = true → (applyOp op s).won = true) ∧
    (s.stepCount ≤ s.maxSteps → (applyOp op s).stepCount ≤ s.maxSteps) := by
  cases op with
  | engine a => exact execAct_fields a s
  | vmstep vm =>
      rcases applyOp_vmstep_shape vm s with h | ⟨a, h⟩
      · rw [h]
        exact ⟨rfl, fun hw => hw, fun hc => hc⟩
      · rw [h]
        exact execAct_fields a s

/-- Claim C6: over any sequence of World-Engine actions and VM steps
(successful or failing), the `won` flag never reverts from `true` to
`false`, and starting from a state whose counter respects its limit the
counter never exceeds the limit. -/
theorem claim6_invariants (ops : List Op) (s : State)
    (h : s.stepCount ≤ s.maxSteps) :
    (s.won = true → (applyOps ops s).won = true) ∧
    (applyOps ops s).stepCount ≤ (applyOps ops s).maxSteps := by
  induction ops generalizing s with
  | nil => exact ⟨fun hw => hw, h⟩
  | cons op rest ih =>
      have hf := applyOp_fields op s
      have h1 : (applyOp op s).stepCount ≤ (applyOp op s).maxSteps := by
        rw [hf.1]
        exact hf.2.2 h
      have hrest := ih (applyOp op s) h1
      exact ⟨fun hw => hrest.1 (hf.2.1 hw), hrest.2⟩

/-- Concrete instantiation of `claim6_invariants`. -/
theorem claim6_invariants_witness :
    sBase.stepCount ≤ sBase.maxSteps ∧
    (applyOps [.engine .forward, .engine .pick] sBase).stepCount
      ≤ (applyOps [.engine .forward, .engine .pick] sBase).maxSteps :=
  ⟨by decide, (claim6_invariants [.engine .forward, .engine .pick] sBase (by decide)).2⟩


theorem compileS_cmd (ofs : Nat) (name : CmdName) (line : Nat) :
    compileS ofs (.cmd name line) = [.act name line] := by
  rw [compileS.eq_def]

theorem compileS_sif_none (ofs : Nat) (c : Cond) (thn : List Stmt) (line : Nat) :
    compileS ofs (.sif c thn none line) =
      .jmpIfFalse c (ofs + 1 + (compileL (ofs + 1) thn).length + 1) line ::
        (compileL (ofs + 1) thn ++
          [.jmp (ofs + 1 + (compileL (ofs + 1) thn).length + 1) line]) := by
  rw [compileS.eq_def]
  simp

theorem compileS_sif_some (ofs : Nat) (c : Cond) (thn l : List Stmt) (line : Nat) :
    compileS ofs (.sif c thn (some l) line) =
      .jmpIfFalse c (ofs + 1 + (compileL (ofs + 1) thn).length + 1) line ::
        (compileL (ofs + 1) thn ++
          (.jmp (ofs + 1 + (compileL (ofs + 1) thn).length + 1 +
                   (compileL (ofs + 1 + (compileL (ofs + 1) thn).length + 1) l).length) line ::
            compileL (ofs + 1 + (compileL (ofs + 1) thn).length + 1) l)) := by
  rw [compileS.eq_def]
  simp

theorem compileS_swhile (ofs : Nat) (c : Cond) (body : List Stmt) (line : Nat) :
    compileS ofs (.swhile c body line) =
      .jmpIfFalse c (ofs + 1 + (compileL (ofs + 1) body).length + 1) line ::
        (compileL (ofs + 1) body ++ [.jmp ofs line]) := by
  rw [compileS.eq_def]

theorem compileL_nil (ofs : Nat) : compileL ofs [] = [] := by
  rw [compileL.eq_def]

theorem compileL_cons (ofs : Nat) (st : Stmt) (rest : List Stmt) :
    compileL ofs (st :: rest) =
      compileS ofs st ++ compileL (ofs + (compileS ofs st).length) rest := by
  rw [compileL.eq_def]

mutual

theorem compileS_targets (ofs : Nat) (st : Stmt) :
    ∀ i ∈ compileS ofs st, ∀ t, instrTarget i = some t →
      (ofs : Int) ≤ t ∧ t ≤ ((ofs + (compileS ofs st).length : Nat) : Int) :=
  match st with
  | .cmd name line => by
      intro i hi t ht
      rw [compileS_cmd] at hi
      simp at hi
      subst hi
      simp [instrTarget] at ht
  | .sif c thn none line => by
      intro i hi t ht
      rw [compileS_sif_none] at hi ⊢
      simp only [List.length_cons, List.length_append, List.length_singleton]
      rcases List.mem_cons.mp hi with hhead | htail
      · subst hhead
        simp only [instrTarget, Option.some.injEq] at ht
        subst ht
        constructor <;> push_cast <;> omega
      · rcases List.mem_append.mp htail with hT | hjmp
        · have hb := compileS_targets_aux (ofs + 1) thn i hT t ht
          constructor <;> push_cast at hb ⊢ <;> omega
        · rw [List.mem_singleton] at hjmp
          subst hjmp
          simp only [instrTarget, Option.some.injEq] at ht
          subst ht
          constructor <;> push_cast <;> omega
  | .sif c thn (some l) line => by
      intro i hi t ht
      rw [compileS_sif_some] at hi ⊢
      simp only [List.length_cons, List.length_append]
      rcases List.mem_cons.mp hi with hhead | htail
      · subst hhead
        simp only [instrTarget, Option.some.injEq] at ht
        subst ht
        constructor <;> push_cast <;> omega
      · rcases List.mem_append.mp htail with hT | hrest
        · have hb := compileS_targets_aux (ofs + 1) thn i hT t ht
          constructor <;> push_cast at hb ⊢ <;> omega
        · rcases List.mem_cons.mp hrest with hjmp | hE
          · subst hjmp
            simp only [instrTarget, Option.some.injEq] at ht
            subst ht
            constructor <;> push_cast <;> omega
          · have hb := compileS_targets_aux
              (ofs + 1 + (compileL (ofs + 1) thn).length + 1) l i hE t ht
            constructor <;> push_cast at hb ⊢ <;> omega
  | .swhile c body line => by
      intro i hi t ht
      rw [compileS_swhile] at hi ⊢
      simp only [List.length_cons, List.length_append, List.length_singleton]
      rcases List.mem_cons.mp hi with hhead | htail
      · subst hhead
        simp only [instrTarget, Option.some.injEq] at ht
        subst ht
        constructor <;> push_cast <;> omega
      · rcases List.mem_append.mp htail with hB | hjmp
        · have hb := compileS_targets_aux (ofs + 1) body i hB t ht
          constructor <;> push_cast at hb ⊢ <;> omega
        · rw [List.mem_singleton] at hjmp
          subst hjmp
          simp only [instrTarget, Option.some.injEq] at ht
          subst ht
          constructor <;> push_cast <;> omega
termination_by sizeOf st

theorem compileS_targets_aux (ofs : Nat) (ss : List Stmt) :
    ∀ i ∈ compileL ofs ss, ∀ t, instrTarget i = some t →
      (ofs : Int) ≤ t ∧ t ≤ ((ofs + (compileL ofs ss).length : Nat) : Int) :=
  match ss with
  | [] => by
      intro i hi t ht
      rw [compileL_nil] at hi
      simp at hi
  | st :: rest => by
      intro i hi t ht
      rw [compileL_cons] at hi ⊢
      simp only [List.length_append]
      rcases List.mem_append.mp hi with hC | hR
      · have hb := compileS_targets ofs st i hC t ht
        constructor <;> push_cast at hb ⊢ <;> omega
      · have hb := compileS_targets_aux (ofs + (compileS ofs st).length) rest i hR t ht
        constructor <;> push_cast at hb ⊢ <;> omega
termination_by sizeOf ss

end

/-- Claim C9: every jump or branch instruction `compile` returns carries a
fully patched target: never the `-1` placeholder, and always between `0` and
the length of the compiled sequence (inclusive). -/
theorem claim9_targets_resolved (prog : List Stmt) :
    ∀ i ∈ compile prog, ∀ t, instrTarget i = some t →
      t ≠ -1 ∧ 0 ≤ t ∧ t ≤ ((compile prog).length : Int) := by
  intro i hi t ht
  have hb := compileS_targets_aux 0 prog i hi t ht
  push_cast at hb
  refine ⟨by omega, by omega, ?_⟩
  simpa using hb.2

/-- Concrete instantiation of `claim9_targets_resolved`. -/
theorem claim9_targets_resolved_witness :
    Instr.jmpIfFalse (.atom .won) 3 1
      ∈ compile [.sif (.atom .won) [.cmd .turnRight 1] (some [.cmd .forward 1]) 1] ∧
    ((3 : Int) ≠ -1 ∧ (0 : Int) ≤ 3 ∧
      (3 : Int) ≤ ((compile [.sif (.atom .won) [.cmd .turnRight 1]
                      (some [.cmd .forward 1]) 1]).length : Int)) := by
  have hc : compile [.sif (.atom .won) [.cmd .turnRight 1] (some [.cmd .forward 1]) 1]
      = [.jmpIfFalse (.atom .won) 3 1, .act .turnRight 1, .jmp 4 1, .act .forward 1] := by
    simp [compile, compileL, compileS]
  refine ⟨by rw [hc]; simp, ?_⟩
  exact claim9_targets_resolved
    [.sif (.atom .won) [.cmd .turnRight 1] (some [.cmd .forward 1]) 1]
    (Instr.jmpIfFalse (.atom .won) 3 1) (by rw [hc]; simp) 3 rfl


/-- Claim C8 counterexample: a while loop whose body block contains zero
statements is *accepted* by the parser — `while (won) { }` inside an
otherwise well-formed program parses successfully to a `While` statement with
an empty body, rather than failing with an error. -/
theorem claim8_counterexample :
    parseScript "program p = while (won) { } ; active=p."
      = .ok [.swhile (.atom .won) [] 1] ∧
    ∀ e, parseScript "program p = while (won) { } ; active=p." ≠ .error e := by
  constructor
  · rfl
  · intro e h
    rw [show parseScript "program p = while (won) { } ; active=p."
          = Except.ok [Stmt.swhile (Cond.atom AtomName.won) [] 1] from rfl] at h
    exact Except.noConfusion h

/-- Claim C8 (amended): loops require a condition, but the parser does *not*
require a non-empty body block: a while loop with an empty body block parses
successfully into a `While` statement whose body is the empty sequence. -/
theorem claim8_empty_body_amended :
    tokenize "program p = while (won) { } ; active=p."
      = .ok [.id "program" 1, .id "p" 1, .sym .eq 1, .id "while" 1, .sym .lparen 1,
             .id "won" 1, .sym .rparen 1, .sym .lbrace 1, .sym .rbrace 1, .sym .semi 1,
             .id "active" 1, .sym .eq 1, .id "p" 1, .sym .dot 1, .eof 1] ∧
    parseScript "program p = while (won) { } ; active=p."
      = .ok [.swhile (.atom .won) [] 1] :=
  ⟨rfl, rfl⟩

/-- Claim C4 counterexample: compiling an `If` with *no* else sequence still
emits the trailing unconditional `Jump` at the end of the then-sequence
(patched to the position immediately after itself), refuting "emits an
unconditional Jump past the else only if an else sequence exists". -/
theorem claim4_counterexample :
    compile [.sif (.atom .won) [.cmd .turnLeft 1] none 1]
      = [.jmpIfFalse (.atom .won) 3 1, .act .turnLeft 1, .jmp 3 1] ∧
    (compile [.sif (.atom .won) [.cmd .turnLeft 1] none 1]).get? 2
      = some (.jmp 3 1) := by
  have hc : compile [.sif (.atom .won) [.cmd .turnLeft 1] none 1]
      = [.jmpIfFalse (.atom .won) 3 1, .act .turnLeft 1, .jmp 3 1] := by
    simp [compile, compileL_cons, compileL_nil, compileS_sif_none, compileS_cmd]
  exact ⟨hc, by rw [hc]; rfl⟩

/-- Claim C4 (amended): for every `If` statement the compiler emits exactly
one `BranchIfFalse` at the head of its code, whose patched target is the
absolute index of the first else instruction (equivalently, the position
after the trailing Jump when the else code is empty); the end of the
then-sequence *always* emits an unconditional `Jump` — patched past the else
code, which with no else is the position immediately after the Jump itself;
and the `if (obstacleAhead) { turnRight } else { forward }` scenario, parsed
from source text, compiles to exactly one `BranchIfFalse` targeting the
`forward` instruction at index 3, with `turnRight` then a `Jump` landing at
index 4, immediately past `forward`. -/
theorem claim4_if_compilation_amended :
    (∀ (ofs : Nat) (c : Cond) (thn : List Stmt) (els : Option (List Stmt)) (line : Nat),
      (compileS ofs (.sif c thn els line)).get? 0
        = some (.jmpIfFalse c (ofs + 1 + (compileL (ofs + 1) thn).length + 1) line) ∧
      (compileS ofs (.sif c thn els line)).get? (1 + (compileL (ofs + 1) thn).length)
        = some (.jmp (ofs + 1 + (compileL (ofs + 1) thn).length + 1 +
            (compileL (ofs + 1 + (compileL (ofs + 1) thn).length + 1) (els.getD [])).length)
            line) ∧
      (compileS ofs (.sif c thn els line)).length
        = 1 + (compileL (ofs + 1) thn).length + 1 +
            (compileL (ofs + 1 + (compileL (ofs + 1) thn).length + 1) (els.getD [])).length ∧
      (compileS ofs (.sif c thn els line)).countP isBranch
        = 1 + (compileL (ofs + 1) thn).countP isBranch +
            (compileL (ofs + 1 + (compileL (ofs + 1) thn).length + 1)
              (els.getD [])).countP isBranch) ∧
    parseScript "program p = if (obstacleAhead) { turnRight } else { forward } ; active=p."
      = .ok [.sif (.atom .obstacleAhead) [.cmd .turnRight 1] (some [.cmd .forward 1]) 1] ∧
    compile [.sif (.atom .obstacleAhead) [.cmd .turnRight 1] (some [.cmd .forward 1]) 1]
      = [.jmpIfFalse (.atom .obstacleAhead) 3 1, .act .turnRight 1,
         .jmp 4 1, .act .forward 1] := by
  refine ⟨?_, rfl, ?_⟩
  · intro ofs c thn els line
    cases els with
    | none =>
        rw [compileS_sif_none]
        refine ⟨rfl, ?_, ?_, ?_⟩
        · rw [show (1 + (compileL (ofs + 1) thn).length)
                = Nat.succ (compileL (ofs + 1) thn).length by omega]
          rw [List.get?_cons_succ, List.get?_eq_getElem?,
              List.getElem?_append_right (Nat.le_refl _), Nat.sub_self]
          simp [compileL_nil]
        · simp [compileL_nil]
          omega
        · simp [compileL_nil, List.countP_cons, List.countP_append, isBranch]
          omega
    | some l =>
        rw [compileS_sif_some]
        refine ⟨rfl, ?_, ?_, ?_⟩
        · rw [show (1 + (compileL (ofs + 1) thn).length)
                = Nat.succ (compileL (ofs + 1) thn).length by omega]
          rw [List.get?_cons_succ, List.get?_eq_getElem?,
              List.getElem?_append_right (Nat.le_refl _), Nat.sub_self]
          simp
        · simp
          omega
        · simp [List.countP_cons, List.countP_append, isBranch]
          omega
  · simp [compile, compileL_cons, compileL_nil, compileS_sif_some, compileS_cmd]


theorem bfsLoop_nil (w : World) (seen : Finset Cell) : bfsLoop w seen [] = false := by
  rw [bfsLoop.eq_def]

theorem bfsLoop_cons_seen {w : World} {seen : Finset Cell} {cur : Cell} {rest : List Cell}
    (h : cur ∈ seen) : bfsLoop w seen (cur :: rest) = bfsLoop w seen rest := by
  rw [bfsLoop.eq_def]
  simp [h]

theorem bfsLoop_cons_win {w : World} {seen : Finset Cell} {cur : Cell} {rest : List Cell}
    (h : cur ∉ seen) (hy : cur.2 = 0) : bfsLoop w seen (cur :: rest) = true := by
  rw [bfsLoop.eq_def]
  simp [h, hy]

theorem bfsLoop_cons_push {w : World} {seen : Finset Cell} {cur : Cell} {rest : List Cell}
    (h : cur ∉ seen) (hy : cur.2 ≠ 0) :
    bfsLoop w seen (cur :: rest)
      = bfsLoop w (insert cur seen) (rest ++ bfsPushes w (insert cur seen) cur) := by
  rw [bfsLoop.eq_def]
  simp [h, hy]

theorem dirOfStep_cases {x y nx ny : Int} {d : Dir} (h : dirOfStep x y nx ny = some d) :
    (nx = x ∧ ny = y - 1) ∨ (nx = x ∧ ny = y + 1) ∨
    (nx = x + 1 ∧ ny = y) ∨ (nx = x - 1 ∧ ny = y) := by
  simp only [dirOfStep] at h
  split_ifs at h <;> tauto

theorem stepOk_mem_nbs {w : World} {cur c' : Cell} (h : stepOk w cur c') :
    c' ∈ bfsNbs cur := by
  rw [stepOk, canStep] at h
  by_cases hbnd : inBounds w c'.1 c'.2 = true
  · rw [if_neg (by simp [hbnd])] at h
    rcases hd : dirOfStep cur.1 cur.2 c'.1 c'.2 with _ | d
    · rw [hd] at h
      exact absurd h (by simp)
    · have hc := dirOfStep_cases hd
      rcases hc with ⟨h1, h2⟩ | ⟨h1, h2⟩ | ⟨h1, h2⟩ | ⟨h1, h2⟩ <;>
        rw [show c' = (c'.1, c'.2) from rfl, h1, h2] <;>
        simp [bfsNbs]
  · rw [if_pos (by simp [hbnd])] at h
    exact absurd h (by simp)

theorem bfsLoop_correct (w : World) (start : Cell) (seen : Finset Cell) (q : List Cell)
    (hq : ∀ c ∈ q, Reachable w start c)
    (hns : ∀ c ∈ seen, c.2 ≠ 0)
    (hcl : ∀ c ∈ seen, ∀ c', stepOk w c c' → c' ∈ seen ∨ c' ∈ q)
    (hstart : start ∈ seen ∨ start ∈ q) :
    (bfsLoop w seen q = true ↔ ∃ c, Reachable w start c ∧ c.2 = 0) := by
  induction seen, q using bfsLoop.induct w with
  | case1 seen =>
      rw [bfsLoop_nil]
      simp only [Bool.false_eq_true, false_iff]
      rintro ⟨c, hr, hy⟩
      have hall : ∀ c, Reachable w start c → c ∈ seen := by
        intro c hr
        induction hr with
        | refl =>
            rcases hstart with h | h
            · exact h
            · exact absurd h (List.not_mem_nil start)
        | tail hab hbc ih =>
            rcases hcl _ ih _ hbc with h | h
            · exact h
            · exact absurd h (List.not_mem_nil _)
      exact hns c (hall c hr) hy
  | case2 seen cur rest hseen ih =>
      rw [bfsLoop_cons_seen hseen]
      apply ih
      · intro c hc
        exact hq c (List.mem_cons_of_mem _ hc)
      · exact hns
      · intro c hc c' hs
        rcases hcl c hc c' hs with h | h
        · exact Or.inl h
        · rcases List.mem_cons.mp h with he | he
          · exact Or.inl (he ▸ hseen)
          · exact Or.inr he
      · rcases hstart with h | h
        · exact Or.inl h
        · rcases List.mem_cons.mp h with he | he
          · exact Or.inl (he ▸ hseen)
          · exact Or.inr he
  | case3 seen cur rest hseen hy =>
      exact iff_of_true (bfsLoop_cons_win hseen hy)
        ⟨cur, hq cur (List.mem_cons_self _ _), hy⟩
  | case4 seen cur rest hseen seen' hy ih =>
      rw [bfsLoop_cons_push hseen hy]
      apply ih
      · intro c hc
        rcases List.mem_append.mp hc with h | h
        · exact hq c (List.mem_cons_of_mem _ h)
        · have hf := List.mem_filter.mp h
          have hcs : stepOk w cur c := by
            have h2 := hf.2
            simp only [Bool.and_eq_true, decide_eq_true_eq] at h2
            exact h2.2
          exact Relation.ReflTransGen.tail (hq cur (List.mem_cons_self _ _)) hcs
      · intro c hc
        rcases Finset.mem_insert.mp hc with he | hm
        · exact he ▸ hy
        · exact hns c hm
      · intro c hc c' hs
        rcases Finset.mem_insert.mp hc with he | hm
        · subst he
          by_cases hin : c' ∈ insert c seen
          · exact Or.inl hin
          · refine Or.inr (List.mem_append.mpr (Or.inr (List.mem_filter.mpr ⟨stepOk_mem_nbs hs, ?_⟩)))
            simp only [Bool.and_eq_true, decide_eq_true_eq]
            exact ⟨hin, hs⟩
        · rcases hcl c hm c' hs with h | h
          · exact Or.inl (Finset.mem_insert_of_mem h)
          · rcases List.mem_cons.mp h with he | he
            · exact Or.inl (he ▸ Finset.mem_insert_self _ _)
            · exact Or.inr (List.mem_append.mpr (Or.inl he))
      · rcases hstart with h | h
        · exact Or.inl (Finset.mem_insert_of_mem h)
        · rcases List.mem_cons.mp h with he | he
          · exact Or.inl (he ▸ Finset.mem_insert_self _ _)
          · exact Or.inr (List.mem_append.mpr (Or.inl he))

/-- Claim C5: for a positive-size world with the robot in bounds,
`goalReachable` (which always terminates — it is a total function here, by
the decreasing measure of `bfsLoop`) returns `true` iff some cell of the win
row `y = 0` is reachable from the robot's cell by in-bounds 4-adjacent steps
each unblocked by a wall edge on either side; equivalently it returns `false`
exactly when the robot's connected component excludes the win row. -/
theorem claim5_goalReachable (s : State)
    (hw : 0 < s.world.width) (hh : 0 < s.world.height)
    (hb : inBounds s.world s.robot.x s.robot.y = true) :
    (goalReachable s = true ↔
      ∃ c : Cell, Reachable s.world (s.robot.x, s.robot.y) c ∧ c.2 = 0) := by
  rw [goalReachable]
  apply bfsLoop_correct s.world (s.robot.x, s.robot.y) ∅ [(s.robot.x, s.robot.y)]
  · intro c hc
    rw [List.mem_singleton] at hc
    exact hc ▸ Relation.ReflTransGen.refl
  · simp
  · simp
  · exact Or.inr (List.mem_singleton.mpr rfl)

/-- Concrete instantiation of `claim5_goalReachable`. -/
theorem claim5_goalReachable_witness :
    0 < sBase.world.width ∧ 0 < sBase.world.height ∧
    inBounds sBase.world sBase.robot.x sBase.robot.y = true ∧
    (goalReachable sBase = true ↔
      ∃ c : Cell, Reachable sBase.world (sBase.robot.x, sBase.robot.y) c ∧ c.2 = 0) :=
  ⟨by decide, by decide, by decide,
   claim5_goalReachable sBase (by decide) (by decide) (by decide)⟩


theorem endFlag_false_of_lt {P : List Instr} {ofs : Nat} (h : ofs < P.length) :
    endFlag P ofs = false := by
  simp [endFlag]
  omega

theorem lt_length_of_get?_some {P : List Instr} {ofs : Nat} {x : Instr}
    (h : P.get? ofs = some x) : ofs < P.length :=
  List.get?_eq_some.mp h |>.1

theorem runVM_zero (vm : VM) (s : State) : runVM 0 vm s = ([], .more vm s) := rfl

theorem runVM_done {vm : VM} (s : State) (n : Nat) (h : vm.done = true) :
    runVM (n + 1) vm s = ([], .done s) := by
  simp [runVM, h]

theorem runVM_step {vm vm' : VM} {s s' : State} {l : Option Nat} {n : Nat}
    {tr : List Nat} {o : Outcome}
    (hd : vm.done = false) (hs : stepVM vm s = .ok (vm', s', l))
    (h2 : runVM n vm' s' = (tr, o)) :
    runVM (n + 1) vm s = (l.toList ++ tr, o) := by
  simp [runVM, hd, hs, h2]

theorem runVM_fail {vm vm' : VM} {s s' : State} {e : KarelError} {n : Nat}
    (hd : vm.done = false) (hs : stepVM vm s = .error (e, vm', s')) :
    runVM (n + 1) vm s = ([], .fail e vm' s') := by
  simp [runVM, hd, hs]

theorem runVM_succ (n : Nat) (vm : VM) (s : State) :
    runVM (n + 1) vm s =
      if vm.done then ([], .done s)
      else
        match stepVM vm s with
        | .error (e, vm', s') => ([], .fail e vm' s')
        | .ok (vm', s', l) =>
            (l.toList ++ (runVM n vm' s').1, (runVM n vm' s').2) := rfl

theorem runVM_seq {vm vmMid : VM} {s sMid : State} {tr1 tr2 : List Nat} {o : Outcome}
    {n1 n2 : Nat}
    (h1 : runVM n1 vm s = (tr1, .more vmMid sMid))
    (h2 : runVM n2 vmMid sMid = (tr2, o)) :
    runVM (n1 + n2) vm s = (tr1 ++ tr2, o) := by
  induction n1 generalizing vm s tr1 with
  | zero =>
      rw [runVM_zero] at h1
      obtain ⟨h1a, h1b, h1c⟩ : tr1 = [] ∧ vmMid = vm ∧ sMid = s := by
        refine ⟨(Prod.mk.injEq _ _ _ _ ▸ h1).1.symm, ?_, ?_⟩ <;>
          · have := (Prod.mk.injEq _ _ _ _ ▸ h1).2
            cases this
            rfl
      subst h1a h1b h1c
      simpa using h2
  | succ n ih =>
      rw [runVM_succ] at h1
      by_cases hd : vm.done = true
      · rw [if_pos hd] at h1
        exact absurd ((Prod.mk.injEq _ _ _ _ ▸ h1).2) (by simp)
      · rw [if_neg hd] at h1
        cases hsv : stepVM vm s with
        | error p =>
            obtain ⟨e, vm', s'⟩ := p
            rw [hsv] at h1
            exact absurd ((Prod.mk.injEq _ _ _ _ ▸ h1).2) (by simp)
        | ok p =>
            obtain ⟨vm', s', l⟩ := p
            rw [hsv] at h1
            have htr : l.toList ++ (runVM n vm' s').1 = tr1 :=
              (Prod.mk.injEq _ _ _ _ ▸ h1).1
            have ho : (runVM n vm' s').2 = .more vmMid sMid :=
              (Prod.mk.injEq _ _ _ _ ▸ h1).2
            have hr : runVM n vm' s' = ((runVM n vm' s').1, .more vmMid sMid) := by
              rw [← ho]
            have := ih hr
            have hrun : runVM (n + n2) vm' s' = ((runVM n vm' s').1 ++ tr2, o) := this
            rw [show n + 1 + n2 = (n + n2) + 1 by omega, runVM_succ, if_neg hd, hsv]
            simp only [hrun]
            simp [← htr]
  
theorem runVM_terminal_mono {vm : VM} {s : State} {n : Nat} {tr : List Nat} {o : Outcome}
    (h : runVM n vm s = (tr, o)) (ht : ∀ vm' s', o ≠ .more vm' s') (k : Nat) :
    runVM (n + k) vm s = (tr, o) := by
  induction n generalizing vm s tr with
  | zero =>
      rw [runVM_zero] at h
      exact absurd ((Prod.mk.injEq _ _ _ _ ▸ h).2).symm (ht vm s)
  | succ n ih =>
      rw [runVM_succ] at h
      by_cases hd : vm.done = true
      · rw [if_pos hd] at h
        cases k with
        | zero => rw [runVM_succ, if_pos hd]; exact h
        | succ k =>
            rw [show n + 1 + (k + 1) = (n + k + 1) + 1 by omega, runVM_succ, if_pos hd]
            exact h
      · rw [if_neg hd] at h
        cases hsv : stepVM vm s with
        | error p =>
            obtain ⟨e, vm', s'⟩ := p
            rw [hsv] at h
            rw [show n + 1 + k = (n + k) + 1 by omega, runVM_succ, if_neg hd, hsv]
            exact h
        | ok p =>
            obtain ⟨vm', s', l⟩ := p
            rw [hsv] at h
            have ho : (runVM n vm' s').2 = o := (Prod.mk.injEq _ _ _ _ ▸ h).2
            have hr : runVM n vm' s' = ((runVM n vm' s').1, o) := by rw [← ho]
            have := ih hr
            rw [show n + 1 + k = (n + k) + 1 by omega, runVM_succ, if_neg hd, hsv]
            simp only [this]
            have htr : l.toList ++ (runVM n vm' s').1 = tr :=
              (Prod.mk.injEq _ _ _ _ ▸ h).1
            simp [htr]

theorem runVM_unique {vm : VM} {s : State} {n1 n2 : Nat}
    {r1 r2 : List Nat × Outcome}
    (h1 : runVM n1 vm s = r1) (h2 : runVM n2 vm s = r2)
    (t1 : ∀ vm' s', r1.2 ≠ .more vm' s') (t2 : ∀ vm' s', r2.2 ≠ .more vm' s') :
    r1 = r2 := by
  rcases le_total n1 n2 with h | h
  · have := runVM_terminal_mono (by rw [h1] : runVM n1 vm s = (r1.1, r1.2)) t1 (n2 - n1)
    rw [Nat.add_sub_cancel' h, h2] at this
    rw [this]
  · have := runVM_terminal_mono (by rw [h2] : runVM n2 vm s = (r2.1, r2.2)) t2 (n1 - n2)
    rw [Nat.add_sub_cancel' h, h1] at this
    rw [this]


theorem endFlag_int (P : List Instr) (k : Nat) :
    decide ((P.length : Int) ≤ (k : Int)) = endFlag P k := by
  simp [endFlag]

theorem vmAt_done_false {P : List Instr} {ofs : Nat} (h : ofs < P.length) :
    (vmAt P ofs).done = false := endFlag_false_of_lt h

theorem stepVM_vmAt_act_err {P : List Instr} {ofs : Nat} {s s' : State} {a : CmdName}
    {L : Nat} {e : KarelError}
    (hw : s.won = false) (hins : P.get? ofs = some (.act a L))
    (he : execAct a s = .error (e, s')) :
    stepVM (vmAt P ofs) s = .error (e, vmAt P ofs, s') := by
  have hlt := lt_length_of_get?_some hins
  have hrange : ¬((vmAt P ofs).pc < 0 ∨ ((vmAt P ofs).instr.length : Int) ≤ (vmAt P ofs).pc) := by
    push_neg
    constructor
    · simp [vmAt]
    · simp only [vmAt]
      exact_mod_cast hlt
  rw [stepVM, if_neg (by simp [vmAt_done_false hlt]), if_neg (by simp [hw]), if_neg hrange]
  rw [show (vmAt P ofs).instr.get? (vmAt P ofs).pc.toNat = some (.act a L) by
        simpa [vmAt] using hins]
  simp only [he]

theorem stepVM_vmAt_act_ok {P : List Instr} {ofs : Nat} {s s' : State} {a : CmdName}
    {L : Nat}
    (hw : s.won = false) (hins : P.get? ofs = some (.act a L))
    (he : execAct a s = .ok s') (hw' : s'.won = false) :
    stepVM (vmAt P ofs) s = .ok (vmAt P (ofs + 1), s', some L) := by
  have hlt := lt_length_of_get?_some hins
  have hrange : ¬((vmAt P ofs).pc < 0 ∨ ((vmAt P ofs).instr.length : Int) ≤ (vmAt P ofs).pc) := by
    push_neg
    constructor
    · simp [vmAt]
    · simp only [vmAt]
      exact_mod_cast hlt
  rw [stepVM, if_neg (by simp [vmAt_done_false hlt]), if_neg (by simp [hw]), if_neg hrange]
  rw [show (vmAt P ofs).instr.get? (vmAt P ofs).pc.toNat = some (.act a L) by
        simpa [vmAt] using hins]
  simp only [he, hw', Bool.false_or, instrLine]
  rw [show ((vmAt P ofs).pc + 1) = ((ofs + 1 : Nat) : Int) by simp [vmAt]]
  rw [show (vmAt P ofs).instr = P from rfl]
  rw [endFlag_int]
  rfl

theorem stepVM_vmAt_act_won {P : List Instr} {ofs : Nat} {s s' : State} {a : CmdName}
    {L : Nat}
    (hw : s.won = false) (hins : P.get? ofs = some (.act a L))
    (he : execAct a s = .ok s') (hw' : s'.won = true) :
    stepVM (vmAt P ofs) s
      = .ok ({ pc := ((ofs + 1 : Nat) : Int), instr := P, done := true }, s', some L) := by
  have hlt := lt_length_of_get?_some hins
  have hrange : ¬((vmAt P ofs).pc < 0 ∨ ((vmAt P ofs).instr.length : Int) ≤ (vmAt P ofs).pc) := by
    push_neg
    constructor
    · simp [vmAt]
    · simp only [vmAt]
      exact_mod_cast hlt
  rw [stepVM, if_neg (by simp [vmAt_done_false hlt]), if_neg (by simp [hw]), if_neg hrange]
  rw [show (vmAt P ofs).instr.get? (vmAt P ofs).pc.toNat = some (.act a L) by
        simpa [vmAt] using hins]
  simp only [he, hw', Bool.true_or, instrLine]
  rw [show ((vmAt P ofs).pc + 1) = ((ofs + 1 : Nat) : Int) by simp [vmAt]]
  rfl

theorem stepVM_vmAt_jmp {P : List Instr} {ofs k : Nat} {s : State} {L : Nat}
    (hw : s.won = false) (hins : P.get? ofs = some (.jmp (k : Int) L)) :
    stepVM (vmAt P ofs) s = .ok (vmAt P k, s, some L) := by
  have hlt := lt_length_of_get?_some hins
  have hrange : ¬((vmAt P ofs).pc < 0 ∨ ((vmAt P ofs).instr.length : Int) ≤ (vmAt P ofs).pc) := by
    push_neg
    constructor
    · simp [vmAt]
    · simp only [vmAt]
      exact_mod_cast hlt
  rw [stepVM, if_neg (by simp [vmAt_done_false hlt]), if_neg (by simp [hw]), if_neg hrange]
  rw [show (vmAt P ofs).instr.get? (vmAt P ofs).pc.toNat = some (.jmp (k : Int) L) by
        simpa [vmAt] using hins]
  simp only [hw, Bool.false_or, instrLine]
  rw [show (vmAt P ofs).instr = P from rfl]
  rw [endFlag_int]
  rfl

theorem stepVM_vmAt_jif_true {P : List Instr} {ofs k : Nat} {s : State} {c : Cond}
    {L : Nat}
    (hw : s.won = false) (hins : P.get? ofs = some (.jmpIfFalse c (k : Int) L))
    (hc : evalCond c s = true) :
    stepVM (vmAt P ofs) s = .ok (vmAt P (ofs + 1), s, some L) := by
  have hlt := lt_length_of_get?_some hins
  have hrange : ¬((vmAt P ofs).pc < 0 ∨ ((vmAt P ofs).instr.length : Int) ≤ (vmAt P ofs).pc) := by
    push_neg
    constructor
    · simp [vmAt]
    · simp only [vmAt]
      exact_mod_cast hlt
  rw [stepVM, if_neg (by simp [vmAt_done_false hlt]), if_neg (by simp [hw]), if_neg hrange]
  rw [show (vmAt P ofs).instr.get? (vmAt P ofs).pc.toNat = some (.jmpIfFalse c (k : Int) L) by
        simpa [vmAt] using hins]
  simp only [hw, hc, Bool.false_or, instrLine, Bool.true_eq_false, not_true, if_neg,
    Bool.not_true, ite_false, Bool.false_eq_true]
  rw [show ((vmAt P ofs).pc + 1) = ((ofs + 1 : Nat) : Int) by simp [vmAt]]
  rw [show (vmAt P ofs).instr = P from rfl]
  rw [endFlag_int]
  rfl

theorem stepVM_vmAt_jif_false {P : List Instr} {ofs k : Nat} {s : State} {c : Cond}
    {L : Nat}
    (hw : s.won = false) (hins : P.get? ofs = some (.jmpIfFalse c (k : Int) L))
    (hc : evalCond c s = false) :
    stepVM (vmAt P ofs) s = .ok (vmAt P k, s, some L) := by
  have hlt := lt_length_of_get?_some hins
  have hrange : ¬((vmAt P ofs).pc < 0 ∨ ((vmAt P ofs).instr.length : Int) ≤ (vmAt P ofs).pc) := by
    push_neg
    constructor
    · simp [vmAt]
    · simp only [vmAt]
      exact_mod_cast hlt
  rw [stepVM, if_neg (by simp [vmAt_done_false hlt]), if_neg (by simp [hw]), if_neg hrange]
  rw [show (vmAt P ofs).instr.get? (vmAt P ofs).pc.toNat = some (.jmpIfFalse c (k : Int) L) by
        simpa [vmAt] using hins]
  simp only [hw, hc, Bool.false_or, instrLine, ite_true, Bool.false_eq_true, not_false_iff,
    if_pos]
  rw [show (vmAt P ofs).instr = P from rfl]
  rw [endFlag_int]
  rfl


theorem codeAt_head {P : List Instr} {ofs : Nat} {x : Instr} {rest : List Instr}
    (h : codeAt P ofs (x :: rest)) : P.get? ofs = some x := by
  have := h 0 (by simp)
  simpa using this

theorem codeAt_tail {P : List Instr} {ofs : Nat} {x : Instr} {rest : List Instr}
    (h : codeAt P ofs (x :: rest)) : codeAt P (ofs + 1) rest := by
  intro i hi
  have := h (i + 1) (by simp only [List.length_cons]; omega)
  rw [show ofs + 1 + i = ofs + (i + 1) by omega]
  simpa using this

theorem codeAt_append_left {P : List Instr} {ofs : Nat} {a b : List Instr}
    (h : codeAt P ofs (a ++ b)) : codeAt P ofs a := by
  intro i hi
  have := h i (by simp only [List.length_append]; omega)
  rw [this, List.get?_eq_getElem?, List.get?_eq_getElem?,
      List.getElem?_append_left hi]

theorem codeAt_append_right {P : List Instr} {ofs : Nat} {a b : List Instr}
    (h : codeAt P ofs (a ++ b)) : codeAt P (ofs + a.length) b := by
  intro i hi
  have := h (a.length + i) (by simp only [List.length_append]; omega)
  rw [show ofs + a.length + i = ofs + (a.length + i) by omega, this,
      List.get?_eq_getElem?, List.get?_eq_getElem?,
      List.getElem?_append_right (by omega)]
  simp

theorem codeAt_self (P : List Instr) : codeAt P 0 P := by
  intro i hi
  simp

theorem compileS_sif_getD (ofs : Nat) (c : Cond) (thn : List Stmt)
    (els : Option (List Stmt)) (line : Nat) :
    compileS ofs (.sif c thn els line) =
      .jmpIfFalse c (ofs + 1 + (compileL (ofs + 1) thn).length + 1) line ::
        (compileL (ofs + 1) thn ++
          (.jmp (ofs + 1 + (compileL (ofs + 1) thn).length + 1 +
              (compileL (ofs + 1 + (compileL (ofs + 1) thn).length + 1) (els.getD [])).length)
              line ::
            compileL (ofs + 1 + (compileL (ofs + 1) thn).length + 1) (els.getD []))) := by
  cases els with
  | none =>
      rw [compileS_sif_none]
      simp [compileL_nil]
  | some l =>
      rw [compileS_sif_some]
      simp

theorem simVM (fuel : Nat) :
    (∀ (st : Stmt) (P : List Instr) (ofs : Nat) (s : State),
       codeAt P ofs (compileS ofs st) → s.won = false →
       SimOk P ofs (compileS ofs st).length s (interpS fuel st s)) ∧
    (∀ (ss : List Stmt) (P : List Instr) (ofs : Nat) (s : State),
       codeAt P ofs (compileL ofs ss) → s.won = false →
       SimOk P ofs (compileL ofs ss).length s (interpL fuel ss s)) := by
  induction fuel with
  | zero =>
      constructor
      · intro st P ofs s _ _
        exact trivial
      · intro ss P ofs s _ _
        exact trivial
  | succ fuel ih =>
      obtain ⟨ihS, ihL⟩ := ih
      constructor
      · intro st P ofs s hcode hw
        cases st with
        | cmd a L =>
            rw [compileS_cmd] at hcode ⊢
            have hins := codeAt_head hcode
            have hlt := lt_length_of_get?_some hins
            cases he : execAct a s with
            | error p =>
                obtain ⟨e, s'⟩ := p
                simp only [interpS, he]
                exact ⟨1, vmAt P ofs,
                  runVM_fail (vmAt_done_false hlt) (stepVM_vmAt_act_err hw hins he)⟩
            | ok s' =>
                by_cases hw' : s'.won = true
                · simp only [interpS, he, hw', if_true]
                  refine ⟨2, ?_⟩
                  have h1 : runVM 1 { pc := ((ofs + 1 : Nat) : Int), instr := P, done := true }
                      s' = ([], .done s') := runVM_done s' 0 rfl
                  have := runVM_step (vmAt_done_false hlt)
                    (stepVM_vmAt_act_won hw hins he hw') h1
                  simpa using this
                · have hw'f : s'.won = false := by simpa using hw'
                  simp only [interpS, he, hw'f, Bool.false_eq_true, if_false]
                  refine ⟨hw'f, 1, ?_⟩
                  have := runVM_step (vmAt_done_false hlt)
                    (stepVM_vmAt_act_ok hw hins he hw'f) (runVM_zero (vmAt P (ofs + 1)) s')
                  simpa using this
        | sif c thn els L =>
            have hlen : (compileS ofs (.sif c thn els L)).length
                = (compileL (ofs + 1) thn).length +
                  (compileL (ofs + 1 + (compileL (ofs + 1) thn).length + 1)
                    (els.getD [])).length + 2 := by
              rw [compileS_sif_getD]
              simp only [List.length_cons, List.length_append, List.length_nil]
              omega
            rw [hlen]
            rw [compileS_sif_getD] at hcode
            have hjif := codeAt_head hcode
            have hrest := codeAt_tail hcode
            have hT := codeAt_append_left hrest
            have hrest2 := codeAt_append_right hrest
            have hjmp := codeAt_head hrest2
            have hE := codeAt_tail hrest2
            have hd0 := vmAt_done_false (lt_length_of_get?_some hjif)
            by_cases hc : evalCond c s = true
            · have hstep0 := stepVM_vmAt_jif_true hw hjif hc
              rcases hI : interpL fuel thn s with ⟨tr, o⟩
              have hsim := ihL thn P (ofs + 1) s hT hw
              rw [hI] at hsim
              cases o with
              | norm s1 =>
                  obtain ⟨hs1w, n1, h1⟩ := hsim
                  simp only [interpS, hc, if_true, hI]
                  have hstepJ := stepVM_vmAt_jmp hs1w hjmp
                  have hrunJ := runVM_step
                    (vmAt_done_false (lt_length_of_get?_some hjmp)) hstepJ
                    (runVM_zero (vmAt P (ofs + 1 + (compileL (ofs + 1) thn).length + 1 +
                      (compileL (ofs + 1 + (compileL (ofs + 1) thn).length + 1)
                        (els.getD [])).length)) s1)
                  have hseq := runVM_seq h1 hrunJ
                  have htot := runVM_step hd0 hstep0 hseq
                  rw [show ofs + 1 + (compileL (ofs + 1) thn).length + 1 +
                        (compileL (ofs + 1 + (compileL (ofs + 1) thn).length + 1)
                          (els.getD [])).length
                      = ofs + ((compileL (ofs + 1) thn).length +
                          (compileL (ofs + 1 + (compileL (ofs + 1) thn).length + 1)
                            (els.getD [])).length + 2) by omega] at htot
                  refine ⟨hs1w, n1 + 1 + 1, ?_⟩
                  simpa using htot
              | stopW s1 =>
                  obtain ⟨n1, h1⟩ := hsim
                  simp only [interpS, hc, if_true, hI]
                  refine ⟨n1 + 1, ?_⟩
                  simpa using runVM_step hd0 hstep0 h1
              | fail e s1 =>
                  obtain ⟨n1, vm', h1⟩ := hsim
                  simp only [interpS, hc, if_true, hI]
                  refine ⟨n1 + 1, vm', ?_⟩
                  simpa using runVM_step hd0 hstep0 h1
              | more s1 =>
                  simp only [interpS, hc, if_true, hI]
                  exact trivial
            · have hcf : evalCond c s = false := by simpa using hc
              have hstep0 := stepVM_vmAt_jif_false hw hjif hcf
              rcases hI : interpL fuel (els.getD []) s with ⟨tr, o⟩
              have hsim := ihL (els.getD []) P
                (ofs + 1 + (compileL (ofs + 1) thn).length + 1) s hE hw
              rw [hI] at hsim
              cases o with
              | norm s1 =>
                  obtain ⟨hs1w, n1, h1⟩ := hsim
                  simp only [interpS, hcf, Bool.false_eq_true, if_false, hI]
                  have htot := runVM_step hd0 hstep0 h1
                  rw [show ofs + 1 + (compileL (ofs + 1) thn).length + 1 +
                        (compileL (ofs + 1 + (compileL (ofs + 1) thn).length + 1)
                          (els.getD [])).length
                      = ofs + ((compileL (ofs + 1) thn).length +
                          (compileL (ofs + 1 + (compileL (ofs + 1) thn).length + 1)
                            (els.getD [])).length + 2) by omega] at htot
                  refine ⟨hs1w, n1 + 1, ?_⟩
                  simpa using htot
              | stopW s1 =>
                  obtain ⟨n1, h1⟩ := hsim
                  simp only [interpS, hcf, Bool.false_eq_true, if_false, hI]
                  refine ⟨n1 + 1, ?_⟩
                  simpa using runVM_step hd0 hstep0 h1
              | fail e s1 =>
                  obtain ⟨n1, vm', h1⟩ := hsim
                  simp only [interpS, hcf, Bool.false_eq_true, if_false, hI]
                  refine ⟨n1 + 1, vm', ?_⟩
                  simpa using runVM_step hd0 hstep0 h1
              | more s1 =>
                  simp only [interpS, hcf, Bool.false_eq_true, if_false, hI]
                  exact trivial
        | swhile c b L =>
            have hcode0 := hcode
            have hlenW : (compileS ofs (.swhile c b L)).length
                = (compileL (ofs + 1) b).length + 2 := by
              rw [compileS_swhile]
              simp only [List.length_cons, List.length_append, List.length_singleton,
                List.length_nil]
              try omega
            rw [hlenW]
            rw [compileS_swhile] at hcode
            have hjif := codeAt_head hcode
            have hrest := codeAt_tail hcode
            have hB := codeAt_append_left hrest
            have hrest2 := codeAt_append_right hrest
            have hjmp := codeAt_head hrest2
            have hd0 := vmAt_done_false (lt_length_of_get?_some hjif)
            by_cases hc : evalCond c s = true
            · have hstep0 := stepVM_vmAt_jif_true hw hjif hc
              rcases hI : interpL fuel b s with ⟨tr, o⟩
              have hsim := ihL b P (ofs + 1) s hB hw
              rw [hI] at hsim
              cases o with
              | norm s1 =>
                  obtain ⟨hs1w, nB, h1⟩ := hsim
                  have hstepJ := stepVM_vmAt_jmp hs1w hjmp
                  have hrunJ := runVM_step
                    (vmAt_done_false (lt_length_of_get?_some hjmp)) hstepJ
                    (runVM_zero (vmAt P ofs) s1)
                  have hseq := runVM_seq h1 hrunJ
                  rcases hI2 : interpS fuel (.swhile c b L) s1 with ⟨tr2, o2⟩
                  have hsim2 := ihS (.swhile c b L) P ofs s1 hcode0 hs1w
                  rw [hI2, hlenW] at hsim2
                  cases o2 with
                  | norm s2 =>
                      obtain ⟨hs2w, n2, h2⟩ := hsim2
                      simp only [interpS, hc, if_true, hI, hI2]
                      refine ⟨hs2w, nB + 1 + n2 + 1, ?_⟩
                      have hseq2 := runVM_seq hseq h2
                      have htot := runVM_step hd0 hstep0 hseq2
                      simpa using htot
                  | stopW s2 =>
                      obtain ⟨n2, h2⟩ := hsim2
                      simp only [interpS, hc, if_true, hI, hI2]
                      refine ⟨nB + 1 + n2 + 1, ?_⟩
                      have hseq2 := runVM_seq hseq h2
                      have htot := runVM_step hd0 hstep0 hseq2
                      simpa using htot
                  | fail e s2 =>
                      obtain ⟨n2, vm', h2⟩ := hsim2
                      simp only [interpS, hc, if_true, hI, hI2]
                      refine ⟨nB + 1 + n2 + 1, vm', ?_⟩
                      have hseq2 := runVM_seq hseq h2
                      have htot := runVM_step hd0 hstep0 hseq2
                      simpa using htot
                  | more s2 =>
                      simp only [interpS, hc, if_true, hI, hI2]
                      exact trivial
              | stopW s1 =>
                  obtain ⟨n1, h1⟩ := hsim
                  simp only [interpS, hc, if_true, hI]
                  refine ⟨n1 + 1, ?_⟩
                  simpa using runVM_step hd0 hstep0 h1
              | fail e s1 =>
                  obtain ⟨n1, vm', h1⟩ := hsim
                  simp only [interpS, hc, if_true, hI]
                  refine ⟨n1 + 1, vm', ?_⟩
                  simpa using runVM_step hd0 hstep0 h1
              | more s1 =>
                  simp only [interpS, hc, if_true, hI]
                  exact trivial
            · have hcf : evalCond c s = false := by simpa using hc
              have hstep0 := stepVM_vmAt_jif_false hw hjif hcf
              simp only [interpS, hcf, Bool.false_eq_true, if_false]
              refine ⟨hw, 1, ?_⟩
              have := runVM_step hd0 hstep0 (runVM_zero
                (vmAt P (ofs + 1 + (compileL (ofs + 1) b).length + 1)) s)
              rw [show ofs + 1 + (compileL (ofs + 1) b).length + 1
                  = ofs + ((compileL (ofs + 1) b).length + 2) by omega] at this
              simpa using this
      · intro ss P ofs s hcode hw
        cases ss with
        | nil =>
            rw [compileL_nil] at hcode ⊢
            simp only [interpL]
            refine ⟨hw, 0, ?_⟩
            simpa using runVM_zero (vmAt P ofs) s
        | cons st rest =>
            rw [compileL_cons] at hcode ⊢
            have hC := codeAt_append_left hcode
            have hR := codeAt_append_right hcode
            rcases hI : interpS fuel st s with ⟨tr1, o1⟩
            have hsim1 := ihS st P ofs s hC hw
            rw [hI] at hsim1
            cases o1 with
            | norm s1 =>
                obtain ⟨hs1w, n1, h1⟩ := hsim1
                rcases hI2 : interpL fuel rest s1 with ⟨tr2, o2⟩
                have hsim2 := ihL rest P (ofs + (compileS ofs st).length) s1 hR hs1w
                rw [hI2] at hsim2
                cases o2 with
                | norm s2 =>
                    obtain ⟨hs2w, n2, h2⟩ := hsim2
                    simp only [interpL, hI, hI2]
                    refine ⟨hs2w, n1 + n2, ?_⟩
                    have := runVM_seq h1 h2
                    rw [show ofs + (compileS ofs st).length
                          + (compileL (ofs + (compileS ofs st).length) rest).length
                        = ofs + (compileS ofs st
                            ++ compileL (ofs + (compileS ofs st).length) rest).length by
                      simp only [List.length_append]; omega] at this
                    exact this
                | stopW s2 =>
                    obtain ⟨n2, h2⟩ := hsim2
                    simp only [interpL, hI, hI2]
                    exact ⟨n1 + n2, runVM_seq h1 h2⟩
                | fail e s2 =>
                    obtain ⟨n2, vm', h2⟩ := hsim2
                    simp only [interpL, hI, hI2]
                    exact ⟨n1 + n2, vm', runVM_seq h1 h2⟩
                | more s2 =>
                    simp only [interpL, hI, hI2]
                    exact trivial
            | stopW s1 =>
                obtain ⟨n1, h1⟩ := hsim1
                simp only [interpL, hI]
                exact ⟨n1, h1⟩
            | fail e s1 =>
                obtain ⟨n1, vm', h1⟩ := hsim1
                simp only [interpL, hI]
                exact ⟨n1, vm', h1⟩
            | more s1 =>
                simp only [interpL, hI]
                exact trivial


theorem makeVM_eq_vmAt (P : List Instr) : makeVM P = vmAt P 0 := by
  simp [makeVM, vmAt, endFlag, Nat.le_zero]

theorem stepVM_won {vm : VM} {s : State} (hd : vm.done = false) (hw : s.won = true) :
    stepVM vm s = .ok ({ vm with done := true }, s, none) := by
  rw [stepVM, if_neg (by simp [hd]), if_pos (by simp [hw])]

/-- Claim C1 (amended): compiling and stepping the VM to completion visits
exactly the same source lines, in the same order, as the code-faithful
tree-walking interpreter `interpS`/`interpL` — one that reports an
`If`/`While` statement's line both when its condition is evaluated and when
the then-branch's or loop iteration's implicit trailing jump executes, and
that halts as soon as the `won` flag becomes true.  Whenever that
interpreter completes (normally, by winning, or by a propagated engine
failure), the VM run from the compiled program reaches the corresponding
terminal outcome with the identical line trace; moreover the VM's terminal
result is unique across fuel values.  (The grammar embedded here has no
reachability atom, so the claim's `goalReachable` proviso is vacuous.) -/
theorem claim1_compile_step_refinement (prog : List Stmt) (s : State) (fuel : Nat)
    (tr : List Nat) :
    (∀ s', interpProgram fuel prog s = (tr, .norm s') →
      ∃ n, runVM n (makeVM (compile prog)) s = (tr, .done s')) ∧
    (∀ s', interpProgram fuel prog s = (tr, .stopW s') →
      ∃ n, runVM n (makeVM (compile prog)) s = (tr, .done s')) ∧
    (∀ e s', interpProgram fuel prog s = (tr, .fail e s') →
      ∃ n vm', runVM n (makeVM (compile prog)) s = (tr, .fail e vm' s')) ∧
    (∀ n1 n2 r1 r2, runVM n1 (makeVM (compile prog)) s = r1 →
      runVM n2 (makeVM (compile prog)) s = r2 →
      (∀ vm' s', r1.2 ≠ .more vm' s') → (∀ vm' s', r2.2 ≠ .more vm' s') →
      r1 = r2) := by
  have hwonRun : s.won = true →
      runVM 2 (makeVM (compile prog)) s = ([], .done s) := by
    intro hws
    by_cases hd : (makeVM (compile prog)).done = true
    · exact runVM_done s 1 hd
    · have hd' : (makeVM (compile prog)).done = false := by simpa using hd
      have hstep := stepVM_won hd' hws
      have h1 : runVM 1 { makeVM (compile prog) with done := true } s = ([], .done s) :=
        runVM_done s 0 rfl
      simpa using runVM_step hd' hstep h1
  refine ⟨?_, ?_, ?_, ?_⟩
  · intro s' h
    by_cases hws : s.won = true
    · rw [interpProgram, if_pos hws] at h
      simp at h
    · have hw : s.won = false := by simpa using hws
      rw [interpProgram, if_neg (by simp [hw])] at h
      have hsim := (simVM fuel).2 prog (compile prog) 0 s (codeAt_self (compile prog)) hw
      rw [h] at hsim
      obtain ⟨hw', n, hrun⟩ := hsim
      have hend : runVM 1 (vmAt (compile prog) (0 + (compileL 0 prog).length)) s'
          = ([], .done s') := by
        apply runVM_done
        simp [vmAt, endFlag, compile]
      refine ⟨n + 1, ?_⟩
      rw [makeVM_eq_vmAt]
      simpa using runVM_seq hrun hend
  · intro s' h
    by_cases hws : s.won = true
    · rw [interpProgram, if_pos hws] at h
      have htr : tr = [] ∧ s' = s := by
        constructor
        · exact ((Prod.mk.injEq _ _ _ _ ▸ h).1).symm
        · have := (Prod.mk.injEq _ _ _ _ ▸ h).2
          cases this
          rfl
      obtain ⟨h1, h2⟩ := htr
      subst h1 h2
      exact ⟨2, hwonRun hws⟩
    · have hw : s.won = false := by simpa using hws
      rw [interpProgram, if_neg (by simp [hw])] at h
      have hsim := (simVM fuel).2 prog (compile prog) 0 s (codeAt_self (compile prog)) hw
      rw [h] at hsim
      obtain ⟨n, hrun⟩ := hsim
      rw [makeVM_eq_vmAt]
      exact ⟨n, hrun⟩
  · intro e s' h
    by_cases hws : s.won = true
    · rw [interpProgram, if_pos hws] at h
      simp at h
    · have hw : s.won = false := by simpa using hws
      rw [interpProgram, if_neg (by simp [hw])] at h
      have hsim := (simVM fuel).2 prog (compile prog) 0 s (codeAt_self (compile prog)) hw
      rw [h] at hsim
      obtain ⟨n, vm', hrun⟩ := hsim
      rw [makeVM_eq_vmAt]
      exact ⟨n, vm', hrun⟩
  · intro n1 n2 r1 r2 h1 h2 t1 t2
    exact runVM_unique h1 h2 t1 t2

/-- Claim C1 counterexample: for the program
`if (beeperInBag) { turnLeft }` run from a state with one item in the bag,
the compiled VM visits lines `[1, 2, 1]` (the `If` line is reported again by
the trailing jump emitted at the end of the then-branch) while the
spec-described direct tree-walking interpreter visits `[1, 2]` — both runs
complete successfully in the same final state, yet the line traces differ,
so the claim as stated is false. -/
theorem claim1_counterexample :
    runVM 10 (makeVM (compile pC1)) sBag = ([1, 2, 1], .done sAfterC1) ∧
    interpSpecL 10 pC1 sBag = ([1, 2], .norm sAfterC1) ∧
    ([1, 2, 1] : List Nat) ≠ [1, 2] := by
  have hc : compile pC1
      = [.jmpIfFalse (.atom .beeperInBag) 3 1, .act .turnLeft 2, .jmp 3 1] := by
    simp [pC1, compile, compileL_cons, compileL_nil, compileS_sif_none, compileS_cmd]
  rw [hc]
  refine ⟨by decide, by decide, by decide⟩

/-- Concrete instantiation of `claim1_compile_step_refinement`. -/
theorem claim1_compile_step_refinement_witness :
    interpProgram 2 [.cmd .turnLeft 1] sBase = ([1], .norm sTurned) ∧
    (∃ n, runVM n (makeVM (compile [.cmd .turnLeft 1])) sBase = ([1], .done sTurned)) :=
  ⟨by decide,
   (claim1_compile_step_refinement [.cmd .turnLeft 1] sBase 2 [1]).1 sTurned (by decide)⟩

end Karel
